import Mathlib

/-!
Verification development for the `from-agent` chat client.

The definitions below are shallow embeddings of the conversation
orchestration and model-output protocol layer:

* `safeParseJSON` embeds the resilient JSON extractor of
  `src/services/gemini.ts` (strategies: direct parse, markdown-fence
  strip, balanced-brace walk, first-brace/last-brace fallback).
* `Json`, `jsonParse`, `jstringify` model the host platform's JSON value
  space, `JSON.parse` and `JSON.stringify`.  Numeric literals are
  modelled as integers (fractional/exponent literals are rejected by the
  embedded parser); strings are sequences of unicode scalar values, so a
  lone UTF-16 surrogate escape is rejected rather than combined.
  Whitespace is modelled as space, tab, newline and carriage return.
* `runLoop`, `dispatch`, `runHandler` embed the bounded tool-call loop of
  `handleSendMessageInternal` in `src/App.tsx`, with the model backend
  and the todo database as oracles.
* `generateChat` embeds the provider-fallback policy of
  `generateChatResponse` in `src/services/gemini.ts`.
* `dedupFields`, `seedDefaults` embed the form-payload field
  post-processing of `FormAgentCard`.
* `handleFormSubmitAction` embeds the form-submission reducer of
  `src/App.tsx`.
-/

namespace FromAgent

/-- Left brace character (written with an escape throughout). -/
def lbr : Char := '\x7b'

/-- Right brace character. -/
def rbr : Char := '\x7d'

/-- JSON values.  Numbers are modelled as integers. -/
inductive Json where
  | null : Json
  | bool (b : Bool) : Json
  | num (n : Int) : Json
  | str (s : String) : Json
  | arr (elems : List Json) : Json
  | obj (fields : List (String × Json)) : Json
deriving Repr

mutual

/-- Boolean equality on JSON values. -/
def jbeq : Json → Json → Bool
  | .null, .null => true
  | .bool a, .bool b => a == b
  | .num a, .num b => a == b
  | .str a, .str b => a == b
  | .arr a, .arr b => jbeqL a b
  | .obj a, .obj b => jbeqF a b
  | _, _ => false

/-- Boolean equality on JSON value lists. -/
def jbeqL : List Json → List Json → Bool
  | [], [] => true
  | a :: as, b :: bs => jbeq a b && jbeqL as bs
  | _, _ => false

/-- Boolean equality on JSON member lists. -/
def jbeqF : List (String × Json) → List (String × Json) → Bool
  | [], [] => true
  | a :: as, b :: bs => a.1 == b.1 && jbeq a.2 b.2 && jbeqF as bs
  | _, _ => false

end

mutual

theorem jbeq_iff : ∀ a b : Json, jbeq a b = true ↔ a = b
  | .null, b => by cases b <;> simp [jbeq]
  | .bool a, b => by cases b <;> simp [jbeq]
  | .num a, b => by cases b <;> simp [jbeq]
  | .str a, b => by cases b <;> simp [jbeq]
  | .arr a, b => by cases b <;> simp [jbeq, jbeqL_iff a]
  | .obj a, b => by cases b <;> simp [jbeq, jbeqF_iff a]

theorem jbeqL_iff : ∀ a b : List Json, jbeqL a b = true ↔ a = b
  | [], b => by cases b <;> simp [jbeqL]
  | x :: xs, b => by
      cases b <;> simp [jbeqL, jbeq_iff x, jbeqL_iff xs]

theorem jbeqF_iff : ∀ a b : List (String × Json), jbeqF a b = true ↔ a = b
  | [], b => by cases b <;> simp [jbeqF]
  | x :: xs, b => by
      cases b with
      | nil => simp [jbeqF]
      | cons y ys =>
          simp [jbeqF, jbeq_iff x.2, jbeqF_iff xs, Prod.ext_iff, and_assoc]

end

instance : DecidableEq Json := fun a b => decidable_of_iff _ (jbeq_iff a b)

/-- The whitespace characters recognised by the model of `JSON.parse`,
`String.prototype.trim` and friends. -/
def wsChar (c : Char) : Bool :=
  c = ' ' || c = '\t' || c = '\n' || c = '\r'

/-- Decimal digit character (`n < 10` expected). -/
def digitChar (n : Nat) : Char := Char.ofNat (48 + n)

/-- Lowercase hexadecimal digit character (`n < 16` expected),
as produced by JavaScript number-to-hex printing. -/
def hexDigit (n : Nat) : Char :=
  if n < 10 then Char.ofNat (48 + n) else Char.ofNat (87 + n)

/-- Decimal digits of a natural number, most significant first
(fuel-based so that it reduces inside the kernel; the fuel `n + 1`
always suffices). -/
def natDigitsAux : Nat → Nat → List Char
  | 0, _ => []
  | fuel + 1, n =>
      if n < 10 then [digitChar n]
      else natDigitsAux fuel (n / 10) ++ [digitChar (n % 10)]

/-- Decimal digits of a natural number, most significant first. -/
def natDigits (n : Nat) : List Char := natDigitsAux (n + 1) n

/-- Decimal representation of an integer, as `JSON.stringify` prints it. -/
def intChars (n : Int) : List Char :=
  if n < 0 then '-' :: natDigits n.natAbs else natDigits n.natAbs

/-- `JSON.stringify`'s escaping of one string character: quote, backslash
and control characters are escaped, everything else is copied verbatim. -/
def escChar (c : Char) : List Char :=
  if c = '"' then ['\\', '"']
  else if c = '\\' then ['\\', '\\']
  else if c = '\x08' then ['\\', 'b']
  else if c = '\t' then ['\\', 't']
  else if c = '\n' then ['\\', 'n']
  else if c = '\x0c' then ['\\', 'f']
  else if c = '\r' then ['\\', 'r']
  else if c.toNat < 32 then
    ['\\', 'u', '0', '0', hexDigit (c.toNat / 16), hexDigit (c.toNat % 16)]
  else [c]

/-- Escaped body of a JSON string literal. -/
def escBody : List Char → List Char
  | [] => []
  | c :: cs => escChar c ++ escBody cs

/-- Whitespace layout used by `JSON.stringify`: `pre d` is emitted after an
opening bracket and after each comma of a container nested at depth `d`,
`close d` before its closing bracket, `colon` after each key colon.
The compact form uses empty gaps, `JSON.stringify(x, null, 2)` uses
newline-plus-indent gaps. -/
structure GapCfg where
  pre : Nat → List Char
  close : Nat → List Char
  colon : List Char

/-- Gap configuration of plain `JSON.stringify(x)`. -/
def compactCfg : GapCfg := ⟨fun _ => [], fun _ => [], []⟩

/-- Gap configuration of `JSON.stringify(x, null, 2)`. -/
def prettyCfg : GapCfg :=
  ⟨fun d => '\n' :: List.replicate (2 * (d + 1)) ' ',
   fun d => '\n' :: List.replicate (2 * d) ' ',
   [' ']⟩

mutual

/-- Serialise a JSON value at nesting depth `d` with gap layout `g`. -/
def strGenV (g : GapCfg) (d : Nat) : Json → List Char
  | .null => ['n', 'u', 'l', 'l']
  | .bool b => if b then ['t', 'r', 'u', 'e'] else ['f', 'a', 'l', 's', 'e']
  | .num n => intChars n
  | .str s => '"' :: (escBody s.data ++ ['"'])
  | .arr [] => ['[', ']']
  | .arr (x :: xs) =>
      '[' :: (g.pre d ++ strGenV g (d + 1) x ++ strGenE g d xs ++ g.close d ++ [']'])
  | .obj [] => [lbr, rbr]
  | .obj (f :: fs) =>
      lbr :: (g.pre d ++ strGenM g d f ++ strGenF g d fs ++ g.close d ++ [rbr])

/-- Serialise the remaining elements of an array (each preceded by a comma). -/
def strGenE (g : GapCfg) (d : Nat) : List Json → List Char
  | [] => []
  | x :: xs => ',' :: (g.pre d ++ strGenV g (d + 1) x ++ strGenE g d xs)

/-- Serialise one object member. -/
def strGenM (g : GapCfg) (d : Nat) (f : String × Json) : List Char :=
  '"' :: (escBody f.1.data ++ ['"'] ++ (':' :: g.colon) ++ strGenV g (d + 1) f.2)

/-- Serialise the remaining members of an object (each preceded by a comma). -/
def strGenF (g : GapCfg) (d : Nat) : List (String × Json) → List Char
  | [] => []
  | f :: fs => ',' :: (g.pre d ++ strGenM g d f ++ strGenF g d fs)

end

/-- `JSON.stringify(v)`. -/
def jstringify (v : Json) : String := String.mk (strGenV compactCfg 0 v)

/-- `JSON.stringify(v, null, 2)`. -/
def jstringifyPretty (v : Json) : String := String.mk (strGenV prettyCfg 0 v)

/-- Unescape a single-character string escape (`\u` handled separately). -/
def unescape (c : Char) : Option Char :=
  if c = '"' then some '"'
  else if c = '\\' then some '\\'
  else if c = '/' then some '/'
  else if c = 'b' then some '\x08'
  else if c = 'f' then some '\x0c'
  else if c = 'n' then some '\n'
  else if c = 'r' then some '\r'
  else if c = 't' then some '\t'
  else none

/-- Value of a hexadecimal digit character. -/
def hexVal (c : Char) : Option Nat :=
  if '0' ≤ c ∧ c ≤ '9' then some (c.toNat - 48)
  else if 'a' ≤ c ∧ c ≤ 'f' then some (c.toNat - 87)
  else if 'A' ≤ c ∧ c ≤ 'F' then some (c.toNat - 55)
  else none

/-- Parse the body of a JSON string literal (the opening quote already
consumed), returning the decoded characters and the input after the
closing quote.  A `\uXXXX` escape must name a unicode scalar value. -/
def pStringBody : List Char → Option (List Char × List Char)
  | [] => none
  | c :: rest =>
      if c = '"' then some ([], rest)
      else if c = '\\' then
        match rest with
        | [] => none
        | e :: rest2 =>
            if e = 'u' then
              match rest2 with
              | h1 :: h2 :: h3 :: h4 :: rest3 =>
                  match hexVal h1, hexVal h2, hexVal h3, hexVal h4 with
                  | some v1, some v2, some v3, some v4 =>
                      let v := v1 * 4096 + v2 * 256 + v3 * 16 + v4
                      if v < 55296 ∨ 57343 < v then
                        (pStringBody rest3).map (fun p => (Char.ofNat v :: p.1, p.2))
                      else none
                  | _, _, _, _ => none
              | _ => none
            else
              match unescape e with
              | some u => (pStringBody rest2).map (fun p => (u :: p.1, p.2))
              | none => none
      else if c.toNat < 32 then none
      else (pStringBody rest).map (fun p => (c :: p.1, p.2))

/-- Numeric value of a list of decimal digit characters. -/
def digitsToNat (ds : List Char) : Nat :=
  ds.foldl (fun a c => a * 10 + (c.toNat - 48)) 0

/-- Parse an unsigned JSON integer (leading-zero rule: a leading `0` is a
complete integer part). -/
def pNat : List Char → Option (Nat × List Char)
  | [] => none
  | c :: rest =>
      if c = '0' then some (0, rest)
      else if c.isDigit then
        some (digitsToNat ((c :: rest).takeWhile Char.isDigit),
              (c :: rest).dropWhile Char.isDigit)
      else none

/-- Reject a fractional part or exponent after the integer part: the model
covers integer literals only. -/
def intEnd : List Char → Bool
  | [] => true
  | c :: _ => !(c = '.' || c = 'e' || c = 'E')

/-- Parse a JSON number as an integer. -/
def pNum : List Char → Option (Int × List Char)
  | [] => none
  | c :: rest =>
      if c = '-' then
        match pNat rest with
        | some (n, r) => if intEnd r then some (-(n : Int), r) else none
        | none => none
      else
        match pNat (c :: rest) with
        | some (n, r) => if intEnd r then some ((n : Int), r) else none
        | none => none

mutual

/-- Fuel-bounded JSON value parser.  The input is expected to start at a
value character (callers skip whitespace); the result carries the
unconsumed remainder. -/
def pVal : Nat → List Char → Option (Json × List Char)
  | 0, _ => none
  | Nat.succ fuel, l =>
      match l with
      | [] => none
      | c :: rest =>
          if c = lbr then
            match rest.dropWhile wsChar with
            | [] => none
            | c2 :: r2 =>
                if c2 = rbr then some (.obj [], r2)
                else (pMembers fuel (c2 :: r2)).map (fun p => (.obj p.1, p.2))
          else if c = '[' then
            match rest.dropWhile wsChar with
            | [] => none
            | c2 :: r2 =>
                if c2 = ']' then some (.arr [], r2)
                else (pElems fuel (c2 :: r2)).map (fun p => (.arr p.1, p.2))
          else if c = '"' then
            (pStringBody rest).map (fun p => (.str (String.mk p.1), p.2))
          else if c = 't' then
            if rest.take 3 = ['r', 'u', 'e'] then some (.bool true, rest.drop 3) else none
          else if c = 'f' then
            if rest.take 4 = ['a', 'l', 's', 'e'] then some (.bool false, rest.drop 4) else none
          else if c = 'n' then
            if rest.take 3 = ['u', 'l', 'l'] then some (.null, rest.drop 3) else none
          else (pNum (c :: rest)).map (fun p => (.num p.1, p.2))

/-- Parse a non-empty member list of a JSON object, up to and including the
closing brace. -/
def pMembers : Nat → List Char → Option (List (String × Json) × List Char)
  | 0, _ => none
  | Nat.succ fuel, l =>
      match l with
      | [] => none
      | c :: rest =>
          if c = '"' then
            match pStringBody rest with
            | some (k, r1) =>
                match r1.dropWhile wsChar with
                | [] => none
                | c3 :: r3 =>
                    if c3 = ':' then
                      match pVal fuel (r3.dropWhile wsChar) with
                      | some (v, r4) =>
                          match r4.dropWhile wsChar with
                          | [] => none
                          | c6 :: r6 =>
                              if c6 = ',' then
                                (pMembers fuel (r6.dropWhile wsChar)).map
                                  (fun p => ((String.mk k, v) :: p.1, p.2))
                              else if c6 = rbr then some ([(String.mk k, v)], r6)
                              else none
                      | none => none
                    else none
            | none => none
          else none

/-- Parse a non-empty element list of a JSON array, up to and including the
closing bracket. -/
def pElems : Nat → List Char → Option (List Json × List Char)
  | 0, _ => none
  | Nat.succ fuel, l =>
      match pVal fuel l with
      | some (v, r1) =>
          match r1.dropWhile wsChar with
          | [] => none
          | c3 :: r3 =>
              if c3 = ',' then
                (pElems fuel (r3.dropWhile wsChar)).map (fun p => (v :: p.1, p.2))
              else if c3 = ']' then some ([v], r3)
              else none
      | none => none

end

/-- Model of `JSON.parse`: parse one value, demand that only whitespace
remains. -/
def jsonParse (l : List Char) : Option Json :=
  match pVal (l.length + 1) (l.dropWhile wsChar) with
  | some (v, r) => if (r.dropWhile wsChar).isEmpty then some v else none
  | none => none

/-! ## The resilient JSON extractor (`safeParseJSON` in `services/gemini.ts`) -/

/-- The balanced-brace walk of extraction strategy 3: starting at the first
brace with the shown balance / in-string / escaped state, return the
candidate substring ending where the balance first returns to zero,
together with the unscanned remainder.  `none` means the walk ran off the
end of the input without the balance returning to zero. -/
def walkSplit : List Char → Int → Bool → Bool → Option (List Char × List Char)
  | [], _, _, _ => none
  | c :: rest, bal, inStr, esc =>
      if esc then
        (walkSplit rest bal inStr false).map (fun p => (c :: p.1, p.2))
      else if c = '\\' then
        (walkSplit rest bal inStr true).map (fun p => (c :: p.1, p.2))
      else if c = '"' then
        (walkSplit rest bal (!inStr) false).map (fun p => (c :: p.1, p.2))
      else if !inStr && c = lbr then
        (walkSplit rest (bal + 1) inStr false).map (fun p => (c :: p.1, p.2))
      else if !inStr && c = rbr then
        if bal - 1 = 0 then some ([c], rest)
        else (walkSplit rest (bal - 1) inStr false).map (fun p => (c :: p.1, p.2))
      else
        (walkSplit rest bal inStr false).map (fun p => (c :: p.1, p.2))

/-- `String.prototype.trim` (on character lists, with the modelled
whitespace set). -/
def trimChars (l : List Char) : List Char :=
  ((l.dropWhile wsChar).reverse.dropWhile wsChar).reverse

/-- Strip a wrapping markdown fence, as `safeParseJSON` does: if the text
starts with three backticks, drop a leading ```` ```json ```` or ```` ``` ````,
drop a trailing ```` ``` ````, and trim again. -/
def fenceStrip (l : List Char) : List Char :=
  if l.take 3 = ['`', '`', '`'] then
    let l1 := if (l.drop 3).take 4 = ['j', 's', 'o', 'n'] then l.drop 7 else l.drop 3
    let l2 := if l1.reverse.take 3 = ['`', '`', '`'] then (l1.reverse.drop 3).reverse else l1
    trimChars l2
  else l

/-- Split the input at its first opening brace: `some (before, fromBrace)`
where `fromBrace` starts with the brace, or `none` when there is no brace
(`indexOf('\x7b') === -1`). -/
def firstBraceSplit (l : List Char) : Option (List Char × List Char) :=
  let suf := l.dropWhile (fun c => !(c = lbr))
  if suf.isEmpty then none else some (l.takeWhile (fun c => !(c = lbr)), suf)

/-- Result of the extractor: a recovered JSON value, or the sentinel object
carrying the error tag and the raw input. -/
inductive SafeParsed where
  | parsed (j : Json) : SafeParsed
  | failed (tag : String) (raw : String) : SafeParsed
deriving Repr, DecidableEq

/-- Extraction strategy 4: parse the substring between the first `\x7b` and
the last `\x7d` of the cleaned text (the guard `lastBrace > firstBrace` is
the candidate having at least two characters). -/
def lastDitch (cleaned : List Char) (raw : String) : SafeParsed :=
  match firstBraceSplit cleaned with
  | none => .failed "JSON Parse Error" raw
  | some (_, suf) =>
      let cand := (suf.reverse.dropWhile (fun c => !(c = rbr))).reverse
      if 2 ≤ cand.length then
        match jsonParse cand with
        | some j => .parsed j
        | none => .failed "JSON Parse Error" raw
      else .failed "JSON Parse Error" raw

/-- The resilient JSON extractor `safeParseJSON` of `services/gemini.ts`:
direct parse, then fence-stripped parse, then the balanced-brace walk,
then the first-brace/last-brace fallback; on total failure the sentinel
object with the error tag and the verbatim raw input. -/
def safeParseJSON (str : String) : SafeParsed :=
  match jsonParse str.data with
  | some j => .parsed j
  | none =>
      let cleaned := fenceStrip (trimChars str.data)
      match jsonParse cleaned with
      | some j => .parsed j
      | none =>
          match firstBraceSplit cleaned with
          | none => .failed "JSON Parse Error" str
          | some (_, suf) =>
              match walkSplit suf 0 false false with
              | some (cand, _) =>
                  match jsonParse cand with
                  | some j => .parsed j
                  | none => lastDitch cleaned str
              | none => lastDitch cleaned str

/-! ## List and character helper lemmas -/

/-- The head of `l` (if any) fails the predicate `q`. -/
def headFails (q : Char → Bool) : List Char → Prop
  | [] => True
  | c :: _ => q c = false

theorem dropWhile_append_headFails (q : Char → Bool) (xs t : List Char)
    (ht : headFails q t) : (xs ++ t).dropWhile q = xs.dropWhile q ++ t := by
  induction xs with
  | nil =>
      cases t with
      | nil => simp
      | cons c ts => simp_all [headFails, List.dropWhile_cons]
  | cons a xs ih => by_cases h : q a <;> simp_all [List.dropWhile_cons]

theorem dropWhile_append_all (q : Char → Bool) (xs t : List Char)
    (hx : ∀ c ∈ xs, q c = true) : (xs ++ t).dropWhile q = t.dropWhile q := by
  induction xs with
  | nil => simp
  | cons a xs ih => simp_all [List.dropWhile_cons]

theorem takeWhile_append_all (q : Char → Bool) (xs t : List Char)
    (hx : ∀ c ∈ xs, q c = true) (ht : headFails q t) :
    (xs ++ t).takeWhile q = xs := by
  induction xs with
  | nil =>
      cases t with
      | nil => simp
      | cons c ts => simp_all [headFails, List.takeWhile_cons]
  | cons a xs ih => simp_all [List.takeWhile_cons]

theorem dropWhile_append_all_fails (q : Char → Bool) (xs t : List Char)
    (hx : ∀ c ∈ xs, q c = true) (ht : headFails q t) :
    (xs ++ t).dropWhile q = t := by
  rw [dropWhile_append_all q xs t hx]
  cases t with
  | nil => simp
  | cons c ts => simp_all [headFails, List.dropWhile_cons]

theorem head_fails_of_dropWhile_cons {q : Char → Bool} {l t : List Char} {c : Char}
    (h : l.dropWhile q = c :: t) : q c = false := by
  induction l with
  | nil => simp at h
  | cons a l ih =>
      rw [List.dropWhile_cons] at h
      split at h
      · exact ih h
      · cases h; simp_all

theorem mem_dropWhile_of_neg {q : Char → Bool} {c : Char} (h : q c = false) :
    ∀ {l : List Char}, c ∈ l → c ∈ l.dropWhile q := by
  intro l hm
  induction l with
  | nil => simp at hm
  | cons a l ih =>
      rw [List.dropWhile_cons]
      rcases List.mem_cons.mp hm with rfl | hm2
      · simp [h]
      · split
        · exact ih hm2
        · exact List.mem_cons_of_mem _ hm2

theorem dropWhile_ne_nil_of_mem {q : Char → Bool} {c : Char} {l : List Char}
    (hm : c ∈ l) (h : q c = false) : l.dropWhile q ≠ [] := by
  intro he
  have := mem_dropWhile_of_neg h hm
  simp [he] at this

/-! ## Digit and character classification lemmas -/

theorem digitChar_isDigit {n : Nat} (h : n < 10) : (digitChar n).isDigit = true := by
  interval_cases n <;> decide

theorem digitChar_toNat {n : Nat} (h : n < 10) : (digitChar n).toNat = 48 + n := by
  interval_cases n <;> decide

theorem not_ws_of_digit {c : Char} (h : c.isDigit = true) : wsChar c = false := by
  simp only [wsChar, Bool.or_eq_false_iff, decide_eq_false_iff_not]
  refine ⟨⟨⟨?_, ?_⟩, ?_⟩, ?_⟩ <;> (rintro rfl; exact absurd h (by decide))

theorem digit_ne_of {c : Char} (h : c.isDigit = true) (d : Char)
    (hd : d.isDigit = false) : c ≠ d := by
  rintro rfl; simp [h] at hd

theorem natDigitsAux_irrel : ∀ f g n : Nat, n < f → n < g →
    natDigitsAux f n = natDigitsAux g n := by
  intro f
  induction f with
  | zero => intro g n hf; omega
  | succ f ih =>
      intro g n hf hg
      cases g with
      | zero => omega
      | succ g =>
          simp only [natDigitsAux]
          split
          · rfl
          · next h =>
              have hdiv : n / 10 < n := Nat.div_lt_self (by omega) (by omega)
              rw [ih g (n / 10) (by omega) (by omega)]

/-- The recursive unfolding of `natDigits`. -/
theorem natDigits_eq (n : Nat) : natDigits n =
    if n < 10 then [digitChar n] else natDigits (n / 10) ++ [digitChar (n % 10)] := by
  show natDigitsAux (n + 1) n = _
  simp only [natDigitsAux]
  split
  · rfl
  · next h =>
      have hdiv : n / 10 < n := Nat.div_lt_self (by omega) (by omega)
      rw [natDigitsAux_irrel n (n / 10 + 1) (n / 10) (by omega) (by omega)]
      rfl

theorem natDigits_ne_nil (n : Nat) : natDigits n ≠ [] := by
  rw [natDigits_eq]
  split <;> simp

theorem natDigits_all_digit (n : Nat) : ∀ c ∈ natDigits n, c.isDigit = true := by
  induction n using Nat.strong_induction_on with
  | _ n ih =>
      rw [natDigits_eq]
      split
      · next h => simp [digitChar_isDigit h]
      · next h =>
          intro c hc
          rcases List.mem_append.mp hc with h1 | h2
          · exact ih (n / 10) (Nat.div_lt_self (by omega) (by omega)) c h1
          · simp only [List.mem_singleton] at h2
            subst h2
            exact digitChar_isDigit (Nat.mod_lt _ (by omega))

theorem natDigits_head_ne_zero (n : Nat) (hn : 0 < n) :
    ∃ c t, natDigits n = c :: t ∧ c ≠ '0' ∧ c.isDigit = true := by
  induction n using Nat.strong_induction_on with
  | _ n ih =>
      rw [natDigits_eq]
      split
      · next h =>
          refine ⟨digitChar n, [], rfl, ?_, digitChar_isDigit h⟩
          interval_cases n <;> decide
      · next h =>
          obtain ⟨c, t, he, hne, hd⟩ :=
            ih (n / 10) (Nat.div_lt_self (by omega) (by omega))
              (Nat.div_pos (by omega) (by omega))
          exact ⟨c, t ++ [digitChar (n % 10)], by rw [he]; rfl, hne, hd⟩

theorem foldl_digits_natDigits (n : Nat) : ∀ acc : Nat,
    List.foldl (fun a c => a * 10 + (c.toNat - 48)) acc (natDigits n) =
      acc * 10 ^ (natDigits n).length + n := by
  induction n using Nat.strong_induction_on with
  | _ n ih =>
      intro acc
      rw [natDigits_eq]
      split
      · next h =>
          simp only [List.foldl, List.length_singleton, digitChar_toNat h, pow_one]
          omega
      · next h =>
          rw [List.foldl_append, ih (n / 10) (Nat.div_lt_self (by omega) (by omega))]
          simp only [List.foldl, List.length_append, List.length_singleton]
          rw [digitChar_toNat (Nat.mod_lt _ (by omega)), Nat.add_sub_cancel_left,
            pow_succ, ← mul_assoc]
          have hd := Nat.div_add_mod n 10
          omega

theorem digitsToNat_natDigits (n : Nat) : digitsToNat (natDigits n) = n := by
  simpa [digitsToNat] using foldl_digits_natDigits n 0

/-! ## String-escape and number roundtrip lemmas -/

theorem hexVal_hexDigit {k : Nat} (h : k < 16) : hexVal (hexDigit k) = some k := by
  interval_cases k <;> decide

theorem pStringBody_escBody (cs : List Char) (rest : List Char) :
    pStringBody (escBody cs ++ '"' :: rest) = some (cs, rest) := by
  induction cs with
  | nil =>
      show pStringBody ('"' :: rest) = _
      rw [pStringBody.eq_def]; simp
  | cons c cs ih =>
      show pStringBody ((escChar c ++ escBody cs) ++ '"' :: rest) = _
      rw [List.append_assoc]
      by_cases h1 : c = '"'
      · subst h1
        show pStringBody ('\\' :: '"' :: _) = _
        rw [pStringBody.eq_def]; simp [unescape, ih]
      by_cases h2 : c = '\\'
      · subst h2
        show pStringBody ('\\' :: '\\' :: _) = _
        rw [pStringBody.eq_def]; simp [unescape, ih]
      by_cases h3 : c = '\x08'
      · subst h3
        show pStringBody ('\\' :: 'b' :: _) = _
        rw [pStringBody.eq_def]; simp [unescape, ih]
      by_cases h4 : c = '\t'
      · subst h4
        show pStringBody ('\\' :: 't' :: _) = _
        rw [pStringBody.eq_def]; simp [unescape, ih]
      by_cases h5 : c = '\n'
      · subst h5
        show pStringBody ('\\' :: 'n' :: _) = _
        rw [pStringBody.eq_def]; simp [unescape, ih]
      by_cases h6 : c = '\x0c'
      · subst h6
        show pStringBody ('\\' :: 'f' :: _) = _
        rw [pStringBody.eq_def]; simp [unescape, ih]
      by_cases h7 : c = '\r'
      · subst h7
        show pStringBody ('\\' :: 'r' :: _) = _
        rw [pStringBody.eq_def]; simp [unescape, ih]
      by_cases h8 : c.toNat < 32
      · have hdiv : c.toNat / 16 < 16 := by omega
        have hmod : c.toNat % 16 < 16 := Nat.mod_lt _ (by omega)
        have hu : escChar c =
            ['\\', 'u', '0', '0', hexDigit (c.toNat / 16), hexDigit (c.toNat % 16)] := by
          simp [escChar, h1, h2, h3, h4, h5, h6, h7, h8]
        rw [hu]
        show pStringBody ('\\' :: 'u' :: '0' :: '0' :: hexDigit (c.toNat / 16) ::
          hexDigit (c.toNat % 16) :: (escBody cs ++ '"' :: rest)) = _
        rw [pStringBody.eq_def]
        have hz : hexVal '0' = some 0 := by decide
        simp only [reduceIte, hz, hexVal_hexDigit hdiv, hexVal_hexDigit hmod]
        rw [if_neg (show ¬('\\' : Char) = '"' by decide)]
        have hval : 0 + 0 + c.toNat / 16 * 16 + c.toNat % 16 = c.toNat := by
          have := Nat.div_add_mod' c.toNat 16
          omega
        rw [hval, if_pos (Or.inl (show c.toNat < 55296 by omega)), ih]
        simp [Char.ofNat_toNat]
      · have hc : escChar c = [c] := by
          simp [escChar, h1, h2, h3, h4, h5, h6, h7, h8]
        rw [hc]
        show pStringBody (c :: (escBody cs ++ '"' :: rest)) = _
        rw [pStringBody.eq_def]
        simp [h1, h2, h8, ih]

/-- The characters that may extend or continue a number literal; the list
following a serialised number must not start with one. -/
def numCont (c : Char) : Bool := c.isDigit || c = '.' || c = 'e' || c = 'E'

/-- The remainder constraint for the number case of the roundtrip lemma. -/
def numBoundary (l : List Char) : Prop := headFails numCont l

theorem intEnd_of_numBoundary {l : List Char} (h : numBoundary l) : intEnd l = true := by
  cases l with
  | nil => rfl
  | cons c t =>
      simp only [numBoundary, headFails, numCont, Bool.or_eq_false_iff,
        decide_eq_false_iff_not] at h
      simp [intEnd, h.1.1.2, h.1.2, h.2]

theorem headFails_digit_of_numBoundary {l : List Char} (h : numBoundary l) :
    headFails Char.isDigit l := by
  cases l with
  | nil => trivial
  | cons c t =>
      simp only [numBoundary, headFails, numCont, Bool.or_eq_false_iff] at h ⊢
      exact h.1.1.1

theorem pNat_natDigits (m : Nat) (rest : List Char) (hb : numBoundary rest) :
    pNat (natDigits m ++ rest) = some (m, rest) := by
  rcases Nat.eq_zero_or_pos m with rfl | hm
  · have h0 : natDigits 0 = ['0'] := by rfl
    rw [h0]
    show pNat ('0' :: rest) = _
    rw [pNat.eq_def]
    simp
  · obtain ⟨c, t, he, hne, hd⟩ := natDigits_head_ne_zero m hm
    rw [he]
    show pNat (c :: (t ++ rest)) = _
    rw [pNat]
    rw [if_neg hne, if_pos hd]
    have hall : ∀ x ∈ natDigits m, x.isDigit = true := natDigits_all_digit m
    have hfail : headFails Char.isDigit rest := headFails_digit_of_numBoundary hb
    have htake : ((c :: t) ++ rest).takeWhile Char.isDigit = c :: t := by
      apply takeWhile_append_all _ _ _ _ hfail
      intro x hx; exact hall x (he ▸ hx)
    have hdrop : ((c :: t) ++ rest).dropWhile Char.isDigit = rest := by
      apply dropWhile_append_all_fails _ _ _ _ hfail
      intro x hx; exact hall x (he ▸ hx)
    simp only [List.cons_append] at htake hdrop
    rw [htake, hdrop, ← he, digitsToNat_natDigits]

theorem pNum_intChars (n : Int) (rest : List Char) (hb : numBoundary rest) :
    pNum (intChars n ++ rest) = some (n, rest) := by
  by_cases hn : n < 0
  · have : intChars n = '-' :: natDigits n.natAbs := by simp [intChars, hn]
    rw [this]
    show pNum ('-' :: (natDigits n.natAbs ++ rest)) = _
    rw [pNum]
    simp only [reduceIte, pNat_natDigits _ _ hb, intEnd_of_numBoundary hb, ite_true,
      Option.some.injEq, Prod.mk.injEq]
    exact ⟨by omega, trivial⟩
  · have : intChars n = natDigits n.natAbs := by simp [intChars, hn]
    rw [this]
    obtain ⟨c, t, he⟩ : ∃ c t, natDigits n.natAbs = c :: t := by
      cases hh : natDigits n.natAbs with
      | nil => exact absurd hh (natDigits_ne_nil _)
      | cons c t => exact ⟨c, t, rfl⟩
    have hd : c.isDigit = true := natDigits_all_digit _ c (by rw [he]; simp)
    rw [he]
    show pNum (c :: (t ++ rest)) = _
    rw [pNum]
    rw [if_neg (digit_ne_of hd '-' (by decide))]
    have := pNat_natDigits n.natAbs rest hb
    rw [he] at this
    simp only [List.cons_append] at this
    simp only [this, intEnd_of_numBoundary hb, ite_true, Option.some.injEq,
      Prod.mk.injEq]
    exact ⟨by omega, trivial⟩

/-! ## Fuel accounting for the roundtrip proof -/

mutual

/-- Sufficient parser fuel for one JSON value. -/
def jfuel : Json → Nat
  | .arr xs => 1 + jfuelE xs
  | .obj fs => 1 + jfuelF fs
  | .null => 1
  | .bool _ => 1
  | .num _ => 1
  | .str _ => 1

/-- Sufficient `pElems` fuel for the elements following the first one. -/
def jfuelE : List Json → Nat
  | [] => 0
  | x :: xs => 1 + max (jfuel x) (jfuelE xs)

/-- Sufficient `pMembers` fuel for the members following the first one. -/
def jfuelF : List (String × Json) → Nat
  | [] => 0
  | f :: fs => 1 + max (jfuel f.2) (jfuelF fs)

end

theorem jfuel_pos (v : Json) : 1 ≤ jfuel v := by
  cases v <;> simp [jfuel]

/-- Whitespace-only gap layouts (both the compact and the two-space-indent
layout of `JSON.stringify` are instances). -/
def wsOnly (g : GapCfg) : Prop :=
  (∀ d, ∀ c ∈ g.pre d, wsChar c = true) ∧
    (∀ d, ∀ c ∈ g.close d, wsChar c = true) ∧
    (∀ c ∈ g.colon, wsChar c = true)

theorem compactCfg_wsOnly : wsOnly compactCfg := by
  refine ⟨?_, ?_, ?_⟩ <;> simp [compactCfg]

theorem prettyCfg_wsOnly : wsOnly prettyCfg := by
  refine ⟨?_, ?_, ?_⟩
  · intro d c hc
    simp only [prettyCfg, List.mem_cons, List.mem_replicate] at hc
    rcases hc with rfl | ⟨_, rfl⟩ <;> decide
  · intro d c hc
    simp only [prettyCfg, List.mem_cons, List.mem_replicate] at hc
    rcases hc with rfl | ⟨_, rfl⟩ <;> decide
  · intro c hc
    simp only [prettyCfg, List.mem_cons, List.not_mem_nil, or_false] at hc
    subst hc
    decide

/-! ## Head-shape lemmas for serialised values -/

theorem numCont_of_ws {c : Char} (h : wsChar c = true) : numCont c = false := by
  simp only [wsChar, Bool.or_eq_true, decide_eq_true_eq] at h
  rcases h with ((rfl | rfl) | rfl) | rfl <;> decide

theorem numBoundary_ws_append (w : List Char) (hw : ∀ x ∈ w, wsChar x = true)
    (c : Char) (hc : numCont c = false) (t : List Char) :
    numBoundary (w ++ c :: t) := by
  cases w with
  | nil => exact hc
  | cons w0 ws =>
      show numCont w0 = false
      exact numCont_of_ws (hw w0 (by simp))

theorem intChars_head (n : Int) :
    ∃ c t, intChars n = c :: t ∧ (c = '-' ∨ c.isDigit = true) := by
  by_cases hn : n < 0
  · exact ⟨'-', natDigits n.natAbs, by simp [intChars, hn], Or.inl rfl⟩
  · have : intChars n = natDigits n.natAbs := by simp [intChars, hn]
    obtain ⟨c, t, he⟩ : ∃ c t, natDigits n.natAbs = c :: t := by
      cases hh : natDigits n.natAbs with
      | nil => exact absurd hh (natDigits_ne_nil _)
      | cons c t => exact ⟨c, t, rfl⟩
    exact ⟨c, t, by rw [this, he],
      Or.inr (natDigits_all_digit _ c (by rw [he]; simp))⟩

/-- The first character of any serialised JSON value: it is never
whitespace and never a closing bracket or closing brace. -/
theorem strGenV_head (g : GapCfg) (d : Nat) (v : Json) :
    ∃ c t, strGenV g d v = c :: t ∧ wsChar c = false ∧ c ≠ ']' ∧ c ≠ rbr := by
  cases v with
  | null => exact ⟨'n', _, rfl, by decide, by decide, by decide⟩
  | bool b =>
      cases b with
      | false => exact ⟨'f', _, rfl, by decide, by decide, by decide⟩
      | true => exact ⟨'t', _, rfl, by decide, by decide, by decide⟩
  | num n =>
      obtain ⟨c, t, he, hc⟩ := intChars_head n
      have hs : strGenV g d (Json.num n) = c :: t := he
      refine ⟨c, t, hs, ?_, ?_, ?_⟩
      · rcases hc with rfl | hd
        · decide
        · exact not_ws_of_digit hd
      · rcases hc with rfl | hd
        · decide
        · exact digit_ne_of hd ']' (by decide)
      · rcases hc with rfl | hd
        · decide
        · exact digit_ne_of hd rbr (by decide)
  | str s => exact ⟨'"', _, rfl, by decide, by decide, by decide⟩
  | arr xs =>
      cases xs with
      | nil => exact ⟨'[', _, rfl, by decide, by decide, by decide⟩
      | cons x xs => exact ⟨'[', _, rfl, by decide, by decide, by decide⟩
  | obj fs =>
      cases fs with
      | nil => exact ⟨lbr, _, rfl, by decide, by decide, by decide⟩
      | cons f fs => exact ⟨lbr, _, rfl, by decide, by decide, by decide⟩

/-- `pVal` at positive fuel on an input that starts with a sign or digit
reduces to the number parser. -/
theorem pVal_succ_num (f : Nat) (c : Char) (t : List Char)
    (hc : c = '-' ∨ c.isDigit = true) :
    pVal (f + 1) (c :: t) = (pNum (c :: t)).map (fun p => (Json.num p.1, p.2)) := by
  have h1 : ¬ c = lbr := by
    rcases hc with rfl | hd
    · decide
    · exact digit_ne_of hd lbr (by decide)
  have h2 : ¬ c = '[' := by
    rcases hc with rfl | hd
    · decide
    · exact digit_ne_of hd '[' (by decide)
  have h3 : ¬ c = '"' := by
    rcases hc with rfl | hd
    · decide
    · exact digit_ne_of hd '"' (by decide)
  have h4 : ¬ c = 't' := by
    rcases hc with rfl | hd
    · decide
    · exact digit_ne_of hd 't' (by decide)
  have h5 : ¬ c = 'f' := by
    rcases hc with rfl | hd
    · decide
    · exact digit_ne_of hd 'f' (by decide)
  have h6 : ¬ c = 'n' := by
    rcases hc with rfl | hd
    · decide
    · exact digit_ne_of hd 'n' (by decide)
  simp [pVal, h1, h2, h3, h4, h5, h6]

/-! ## The parse/serialise roundtrip (with remainder) -/

theorem stringmk_data (s : String) : String.mk s.data = s := rfl

mutual

/-- Parsing a serialised value consumes exactly the serialisation.
`rest` is only constrained when the value is a number (the parser must not
munch into the remainder). -/
theorem pVal_rt (g : GapCfg) (hg : wsOnly g) :
    ∀ (v : Json) (d fuel : Nat) (rest : List Char),
      jfuel v ≤ fuel → (∀ n : Int, v = Json.num n → numBoundary rest) →
      pVal fuel (strGenV g d v ++ rest) = some (v, rest)
  | .null, d, fuel, rest => by
      intro hf _
      obtain ⟨f, rfl⟩ : ∃ f, fuel = f + 1 :=
        ⟨fuel - 1, by have := jfuel_pos Json.null; omega⟩
      show pVal (f + 1) ('n' :: 'u' :: 'l' :: 'l' :: rest) = _
      simp [pVal, lbr]
  | .bool true, d, fuel, rest => by
      intro hf _
      obtain ⟨f, rfl⟩ : ∃ f, fuel = f + 1 :=
        ⟨fuel - 1, by have := jfuel_pos (Json.bool true); omega⟩
      show pVal (f + 1) ('t' :: 'r' :: 'u' :: 'e' :: rest) = _
      simp [pVal, lbr]
  | .bool false, d, fuel, rest => by
      intro hf _
      obtain ⟨f, rfl⟩ : ∃ f, fuel = f + 1 :=
        ⟨fuel - 1, by have := jfuel_pos (Json.bool false); omega⟩
      show pVal (f + 1) ('f' :: 'a' :: 'l' :: 's' :: 'e' :: rest) = _
      simp [pVal, lbr]
  | .num n, d, fuel, rest => by
      intro hf hnum
      have hb := hnum n rfl
      obtain ⟨f, rfl⟩ : ∃ f, fuel = f + 1 :=
        ⟨fuel - 1, by have := jfuel_pos (Json.num n); omega⟩
      obtain ⟨c, t, he, hc⟩ := intChars_head n
      have hshape : strGenV g d (Json.num n) ++ rest = c :: (t ++ rest) := by
        show intChars n ++ rest = _
        rw [he, List.cons_append]
      rw [hshape, pVal_succ_num f c (t ++ rest) hc, ← List.cons_append, ← he,
        pNum_intChars n rest hb]
      rfl
  | .str s, d, fuel, rest => by
      intro hf _
      obtain ⟨f, rfl⟩ : ∃ f, fuel = f + 1 :=
        ⟨fuel - 1, by have := jfuel_pos (Json.str s); omega⟩
      show pVal (f + 1) ('"' :: ((escBody s.data ++ ['"']) ++ rest)) = _
      have hshape : (escBody s.data ++ ['"']) ++ rest = escBody s.data ++ '"' :: rest := by
        rw [List.append_assoc]; rfl
      simp only [pVal]
      rw [if_neg (show ¬('"' : Char) = lbr by decide),
        if_neg (show ¬('"' : Char) = '[' by decide), if_pos (by trivial), hshape,
        pStringBody_escBody]
      simp [stringmk_data]
  | .arr [], d, fuel, rest => by
      intro hf _
      obtain ⟨f, rfl⟩ : ∃ f, fuel = f + 1 :=
        ⟨fuel - 1, by have := jfuel_pos (Json.arr []); omega⟩
      show pVal (f + 1) ('[' :: ']' :: rest) = _
      simp only [pVal]
      rw [if_neg (show ¬('[' : Char) = lbr by decide), if_pos (by trivial)]
      rw [show (']' :: rest).dropWhile wsChar = ']' :: rest from by
        rw [List.dropWhile_cons, if_neg]
        simp [wsChar]]
      simp
  | .arr (x :: xs), d, fuel, rest => by
      intro hf _
      have hpos : 1 ≤ fuel := le_trans (jfuel_pos _) hf
      obtain ⟨f, rfl⟩ : ∃ f, fuel = f + 1 := ⟨fuel - 1, by omega⟩
      obtain ⟨cv, tv, hv, hvw, hv1, hv2⟩ := strGenV_head g (d + 1) x
      have hshape : strGenV g d (Json.arr (x :: xs)) ++ rest =
          '[' :: (g.pre d ++ (strGenV g (d + 1) x ++ (strGenE g d xs ++
            (g.close d ++ ']' :: rest)))) := by
        show ('[' :: (g.pre d ++ strGenV g (d + 1) x ++ strGenE g d xs ++
          g.close d ++ [']'])) ++ rest = _
        simp [List.append_assoc]
      rw [hshape]
      simp only [pVal]
      rw [if_neg (show ¬('[' : Char) = lbr by decide), if_pos (by trivial)]
      have hdrop : (g.pre d ++ (strGenV g (d + 1) x ++ (strGenE g d xs ++
          (g.close d ++ ']' :: rest)))).dropWhile wsChar =
          strGenV g (d + 1) x ++ (strGenE g d xs ++ (g.close d ++ ']' :: rest)) := by
        apply dropWhile_append_all_fails wsChar _ _ (hg.1 d)
        rw [hv]
        exact hvw
      rw [hdrop, hv, List.cons_append]
      simp only [if_neg hv1]
      rw [← List.cons_append, ← hv,
        pElems_rt g hg x xs d f rest
          (by simp only [jfuel] at hf; omega)]
      rfl
  | .obj [], d, fuel, rest => by
      intro hf _
      obtain ⟨f, rfl⟩ : ∃ f, fuel = f + 1 :=
        ⟨fuel - 1, by have := jfuel_pos (Json.obj []); omega⟩
      show pVal (f + 1) (lbr :: rbr :: rest) = _
      simp only [pVal]
      rw [if_pos (by trivial)]
      rw [show (rbr :: rest).dropWhile wsChar = rbr :: rest from by
        rw [List.dropWhile_cons, if_neg]
        simp [wsChar, rbr]]
      simp
  | .obj (f0 :: fs), d, fuel, rest => by
      intro hf _
      have hpos : 1 ≤ fuel := le_trans (jfuel_pos _) hf
      obtain ⟨f, rfl⟩ : ∃ f, fuel = f + 1 := ⟨fuel - 1, by omega⟩
      have hshape : strGenV g d (Json.obj (f0 :: fs)) ++ rest =
          lbr :: (g.pre d ++ (strGenM g d f0 ++ (strGenF g d fs ++
            (g.close d ++ rbr :: rest)))) := by
        show (lbr :: (g.pre d ++ strGenM g d f0 ++ strGenF g d fs ++
          g.close d ++ [rbr])) ++ rest = _
        simp [List.append_assoc]
      rw [hshape]
      simp only [pVal]
      rw [if_pos (by trivial)]
      have hdrop : (g.pre d ++ (strGenM g d f0 ++ (strGenF g d fs ++
          (g.close d ++ rbr :: rest)))).dropWhile wsChar =
          strGenM g d f0 ++ (strGenF g d fs ++ (g.close d ++ rbr :: rest)) := by
        apply dropWhile_append_all_fails wsChar _ _ (hg.1 d)
        rw [strGenM.eq_def, List.cons_append]
        exact (show wsChar '"' = false by decide)
      have hmshape : strGenM g d f0 ++ (strGenF g d fs ++ (g.close d ++ rbr :: rest)) =
          '"' :: ((escBody f0.1.data ++ ['"'] ++ (':' :: g.colon) ++
            strGenV g (d + 1) f0.2) ++ (strGenF g d fs ++ (g.close d ++ rbr :: rest))) := by
        rw [strGenM.eq_def, List.cons_append]
      rw [hdrop, hmshape]
      simp only [if_neg (show ¬('"' : Char) = rbr by decide)]
      rw [← hmshape,
        pMembers_rt g hg f0 fs d f rest
          (by simp only [jfuel] at hf; omega)]
      rfl

termination_by v _ _ _ => jfuel v
decreasing_by
  all_goals simp only [jfuel, jfuelE, jfuelF]
  all_goals omega

/-- Parsing the serialised elements of a non-empty array. -/
theorem pElems_rt (g : GapCfg) (hg : wsOnly g) :
    ∀ (x : Json) (xs : List Json) (d fuel : Nat) (rest : List Char),
      jfuelE (x :: xs) ≤ fuel →
      pElems fuel (strGenV g (d + 1) x ++ (strGenE g d xs ++
        (g.close d ++ ']' :: rest))) = some (x :: xs, rest)
  | x, [], d, fuel, rest => by
      intro hf
      have hpos : 1 ≤ fuel := by simp only [jfuelE] at hf; omega
      obtain ⟨f, rfl⟩ : ∃ f, fuel = f + 1 := ⟨fuel - 1, by omega⟩
      have hb : numBoundary (g.close d ++ ']' :: rest) :=
        numBoundary_ws_append (g.close d) (hg.2.1 d) ']' (by decide) rest
      simp only [pElems, strGenE, List.nil_append]
      rw [pVal_rt g hg x (d + 1) f (g.close d ++ ']' :: rest)
        (by simp only [jfuelE] at hf; omega) (fun _ _ => hb)]
      have hdrop : (g.close d ++ ']' :: rest).dropWhile wsChar = ']' :: rest :=
        dropWhile_append_all_fails wsChar (g.close d) (']' :: rest) (hg.2.1 d)
          (show wsChar ']' = false by decide)
      simp only [hdrop]
      rw [if_neg (show ¬(']' : Char) = ',' by decide), if_pos (by trivial)]
  | x, x2 :: xs2, d, fuel, rest => by
      intro hf
      have hpos : 1 ≤ fuel := by simp only [jfuelE] at hf; omega
      obtain ⟨f, rfl⟩ : ∃ f, fuel = f + 1 := ⟨fuel - 1, by omega⟩
      have hshape : strGenE g d (x2 :: xs2) ++ (g.close d ++ ']' :: rest) =
          ',' :: (g.pre d ++ (strGenV g (d + 1) x2 ++ (strGenE g d xs2 ++
            (g.close d ++ ']' :: rest)))) := by
        show (',' :: (g.pre d ++ strGenV g (d + 1) x2 ++ strGenE g d xs2)) ++ _ = _
        simp [List.append_assoc]
      have hb : numBoundary (strGenE g d (x2 :: xs2) ++ (g.close d ++ ']' :: rest)) := by
        rw [hshape]
        exact (show numCont ',' = false by decide)
      simp only [pElems]
      rw [pVal_rt g hg x (d + 1) f _
        (by simp only [jfuelE] at hf; omega) (fun _ _ => hb)]
      have hd1 : (',' :: (g.pre d ++ (strGenV g (d + 1) x2 ++ (strGenE g d xs2 ++
          (g.close d ++ ']' :: rest))))).dropWhile wsChar =
          ',' :: (g.pre d ++ (strGenV g (d + 1) x2 ++ (strGenE g d xs2 ++
            (g.close d ++ ']' :: rest)))) := by
        rw [List.dropWhile_cons, if_neg]
        simp [wsChar]
      obtain ⟨cv, tv, hv, hvw, hv1, hv2⟩ := strGenV_head g (d + 1) x2
      have hdrop : (g.pre d ++ (strGenV g (d + 1) x2 ++ (strGenE g d xs2 ++
          (g.close d ++ ']' :: rest)))).dropWhile wsChar =
          strGenV g (d + 1) x2 ++ (strGenE g d xs2 ++ (g.close d ++ ']' :: rest)) := by
        apply dropWhile_append_all_fails wsChar _ _ (hg.1 d)
        rw [hv]
        exact hvw
      simp only [hshape, hd1, reduceIte, hdrop]
      rw [pElems_rt g hg x2 xs2 d f rest
        (by simp only [jfuelE] at hf ⊢; omega)]
      rfl

termination_by x xs _ _ _ => jfuelE (x :: xs)
decreasing_by
  all_goals simp only [jfuel, jfuelE, jfuelF]
  all_goals omega

/-- Parsing the serialised members of a non-empty object. -/
theorem pMembers_rt (g : GapCfg) (hg : wsOnly g) :
    ∀ (f0 : String × Json) (fs : List (String × Json)) (d fuel : Nat)
      (rest : List Char),
      jfuelF (f0 :: fs) ≤ fuel →
      pMembers fuel (strGenM g d f0 ++ (strGenF g d fs ++
        (g.close d ++ rbr :: rest))) = some (f0 :: fs, rest)
  | f0, [], d, fuel, rest => by
      intro hf
      have hpos : 1 ≤ fuel := by simp only [jfuelF] at hf; omega
      obtain ⟨f, rfl⟩ : ∃ f, fuel = f + 1 := ⟨fuel - 1, by omega⟩
      have hb : numBoundary (g.close d ++ rbr :: rest) :=
        numBoundary_ws_append (g.close d) (hg.2.1 d) rbr (by decide) rest
      have hshape : strGenM g d f0 ++ (strGenF g d [] ++ (g.close d ++ rbr :: rest)) =
          '"' :: (escBody f0.1.data ++ ('"' :: ':' :: (g.colon ++
            (strGenV g (d + 1) f0.2 ++ (g.close d ++ rbr :: rest))))) := by
        rw [strGenM.eq_def]
        simp [List.append_assoc, strGenF]
      rw [hshape]
      simp only [pMembers]
      rw [if_pos (by trivial), pStringBody_escBody]
      have hd1 : (':' :: (g.colon ++ (strGenV g (d + 1) f0.2 ++
          (g.close d ++ rbr :: rest)))).dropWhile wsChar =
          ':' :: (g.colon ++ (strGenV g (d + 1) f0.2 ++ (g.close d ++ rbr :: rest))) := by
        rw [List.dropWhile_cons, if_neg]
        simp [wsChar]
      obtain ⟨cv, tv, hv, hvw, hv1, hv2⟩ := strGenV_head g (d + 1) f0.2
      have hdrop : (g.colon ++ (strGenV g (d + 1) f0.2 ++
          (g.close d ++ rbr :: rest))).dropWhile wsChar =
          strGenV g (d + 1) f0.2 ++ (g.close d ++ rbr :: rest) := by
        apply dropWhile_append_all_fails wsChar _ _ hg.2.2
        rw [hv]
        exact hvw
      simp only [hd1, reduceIte, hdrop]
      rw [pVal_rt g hg f0.2 (d + 1) f _
        (by simp only [jfuelF] at hf; omega) (fun _ _ => hb)]
      have hdrop2 : (g.close d ++ rbr :: rest).dropWhile wsChar = rbr :: rest :=
        dropWhile_append_all_fails wsChar (g.close d) (rbr :: rest) (hg.2.1 d)
          (show wsChar rbr = false by decide)
      simp only [hdrop2, reduceIte]
      simp [stringmk_data, rbr]
  | f0, f1 :: fs1, d, fuel, rest => by
      intro hf
      have hpos : 1 ≤ fuel := by simp only [jfuelF] at hf; omega
      obtain ⟨f, rfl⟩ : ∃ f, fuel = f + 1 := ⟨fuel - 1, by omega⟩
      have hshapeF : strGenF g d (f1 :: fs1) ++ (g.close d ++ rbr :: rest) =
          ',' :: (g.pre d ++ (strGenM g d f1 ++ (strGenF g d fs1 ++
            (g.close d ++ rbr :: rest)))) := by
        show (',' :: (g.pre d ++ strGenM g d f1 ++ strGenF g d fs1)) ++ _ = _
        simp [List.append_assoc]
      have hb : numBoundary (strGenF g d (f1 :: fs1) ++ (g.close d ++ rbr :: rest)) := by
        rw [hshapeF]
        exact (show numCont ',' = false by decide)
      have hshape : strGenM g d f0 ++ (strGenF g d (f1 :: fs1) ++
          (g.close d ++ rbr :: rest)) =
          '"' :: (escBody f0.1.data ++ ('"' :: ':' :: (g.colon ++
            (strGenV g (d + 1) f0.2 ++ (strGenF g d (f1 :: fs1) ++
              (g.close d ++ rbr :: rest)))))) := by
        rw [strGenM.eq_def]
        simp [List.append_assoc]
      rw [hshape]
      simp only [pMembers]
      rw [if_pos (by trivial), pStringBody_escBody]
      have hd1 : (':' :: (g.colon ++ (strGenV g (d + 1) f0.2 ++
          (strGenF g d (f1 :: fs1) ++ (g.close d ++ rbr :: rest))))).dropWhile wsChar =
          ':' :: (g.colon ++ (strGenV g (d + 1) f0.2 ++ (strGenF g d (f1 :: fs1) ++
            (g.close d ++ rbr :: rest)))) := by
        rw [List.dropWhile_cons, if_neg]
        simp [wsChar]
      obtain ⟨cv, tv, hv, hvw, hv1, hv2⟩ := strGenV_head g (d + 1) f0.2
      have hdrop : (g.colon ++ (strGenV g (d + 1) f0.2 ++
          (strGenF g d (f1 :: fs1) ++ (g.close d ++ rbr :: rest)))).dropWhile wsChar =
          strGenV g (d + 1) f0.2 ++ (strGenF g d (f1 :: fs1) ++
            (g.close d ++ rbr :: rest)) := by
        apply dropWhile_append_all_fails wsChar _ _ hg.2.2
        rw [hv]
        exact hvw
      simp only [hd1, reduceIte, hdrop]
      rw [pVal_rt g hg f0.2 (d + 1) f _
        (by simp only [jfuelF] at hf; omega) (fun _ _ => hb)]
      have hd2 : (',' :: (g.pre d ++ (strGenM g d f1 ++ (strGenF g d fs1 ++
          (g.close d ++ rbr :: rest))))).dropWhile wsChar =
          ',' :: (g.pre d ++ (strGenM g d f1 ++ (strGenF g d fs1 ++
            (g.close d ++ rbr :: rest)))) := by
        rw [List.dropWhile_cons, if_neg]
        simp [wsChar]
      have hdrop2 : (g.pre d ++ (strGenM g d f1 ++ (strGenF g d fs1 ++
          (g.close d ++ rbr :: rest)))).dropWhile wsChar =
          strGenM g d f1 ++ (strGenF g d fs1 ++ (g.close d ++ rbr :: rest)) := by
        apply dropWhile_append_all_fails wsChar _ _ (hg.1 d)
        rw [strGenM.eq_def, List.cons_append]
        exact (show wsChar '"' = false by decide)
      simp only [hshapeF, hd2, reduceIte, hdrop2]
      rw [pMembers_rt g hg f1 fs1 d f rest
        (by simp only [jfuelF] at hf ⊢; omega)]
      simp [stringmk_data]
termination_by f0 fs _ _ _ => jfuelF (f0 :: fs)
decreasing_by
  all_goals simp only [jfuel, jfuelE, jfuelF]
  all_goals omega

end

/-! ## Fuel bounds: the fuel needed by a value is at most the length of its
serialisation -/

mutual

/-- The fuel measure of a value is bounded by the length of its
serialisation (in any gap layout). -/
theorem jfuel_le_lenV (g : GapCfg) : ∀ (v : Json) (d : Nat),
    jfuel v ≤ (strGenV g d v).length
  | .null, _ => by simp [jfuel, strGenV]
  | .bool true, _ => by simp [jfuel, strGenV]
  | .bool false, _ => by simp [jfuel, strGenV]
  | .num n, _ => by
      have h : 1 ≤ (natDigits n.natAbs).length :=
        List.length_pos.mpr (natDigits_ne_nil n.natAbs)
      show jfuel (Json.num n) ≤ (intChars n).length
      simp only [jfuel, intChars]
      split
      · simp only [List.length_cons]; omega
      · omega
  | .str s, _ => by simp [jfuel, strGenV]
  | .arr [], _ => by simp [jfuel, jfuelE, strGenV]
  | .arr (x :: xs), d => by
      have h1 := jfuel_le_lenV g x (d + 1)
      have h2 := jfuelE_le_len g xs d
      simp only [jfuel, jfuelE, strGenV, List.length_cons, List.length_append]
      omega
  | .obj [], _ => by simp [jfuel, jfuelF, strGenV]
  | .obj (f0 :: fs), d => by
      have h1 := jfuel_le_lenV g f0.2 (d + 1)
      have h2 := jfuelF_le_len g fs d
      simp only [jfuel, jfuelF, strGenV, strGenM, List.length_cons,
        List.length_append]
      omega
termination_by v _ => jfuel v
decreasing_by
  all_goals simp only [jfuel, jfuelE, jfuelF]
  all_goals omega

/-- Fuel bound for serialised array tails. -/
theorem jfuelE_le_len (g : GapCfg) : ∀ (xs : List Json) (d : Nat),
    jfuelE xs ≤ (strGenE g d xs).length
  | [], _ => by simp [jfuelE, strGenE]
  | x :: xs, d => by
      have h1 := jfuel_le_lenV g x (d + 1)
      have h2 := jfuelE_le_len g xs d
      simp only [jfuelE, strGenE, List.length_cons, List.length_append]
      omega
termination_by xs _ => jfuelE xs
decreasing_by
  all_goals simp only [jfuel, jfuelE, jfuelF]
  all_goals omega

/-- Fuel bound for serialised object member tails. -/
theorem jfuelF_le_len (g : GapCfg) : ∀ (fs : List (String × Json)) (d : Nat),
    jfuelF fs ≤ (strGenF g d fs).length
  | [], _ => by simp [jfuelF, strGenF]
  | f0 :: fs, d => by
      have h1 := jfuel_le_lenV g f0.2 (d + 1)
      have h2 := jfuelF_le_len g fs d
      simp only [jfuelF, strGenF, strGenM, List.length_cons, List.length_append]
      omega
termination_by fs _ => jfuelF fs
decreasing_by
  all_goals simp only [jfuel, jfuelE, jfuelF]
  all_goals omega

end

/-- `JSON.parse` of a serialised object with a whitespace-only prefix and an
arbitrary suffix: it succeeds (with the object) exactly when the suffix is
whitespace-only. -/
theorem jsonParse_ws_obj (g : GapCfg) (hg : wsOnly g) (fs : List (String × Json))
    (wsp post : List Char) (hw : ∀ c ∈ wsp, wsChar c = true) :
    jsonParse (wsp ++ (strGenV g 0 (Json.obj fs) ++ post)) =
      if (post.dropWhile wsChar).isEmpty then some (Json.obj fs) else none := by
  obtain ⟨c, t, he, hcw, hc1, hc2⟩ := strGenV_head g 0 (Json.obj fs)
  have hdrop : (wsp ++ (strGenV g 0 (Json.obj fs) ++ post)).dropWhile wsChar =
      strGenV g 0 (Json.obj fs) ++ post := by
    apply dropWhile_append_all_fails wsChar _ _ hw
    rw [he, List.cons_append]
    exact hcw
  have hfuel : jfuel (Json.obj fs) ≤
      (wsp ++ (strGenV g 0 (Json.obj fs) ++ post)).length + 1 := by
    have h := jfuel_le_lenV g (Json.obj fs) 0
    simp only [List.length_append]
    omega
  have hp := pVal_rt g hg (Json.obj fs) 0
    ((wsp ++ (strGenV g 0 (Json.obj fs) ++ post)).length + 1) post hfuel
    (fun n h => nomatch h)
  simp only [jsonParse, hdrop, hp]

/-! ## Strategy failure: non-JSON junk before the first brace makes the
whole-text parse fail -/

/-- `pNat` never consumes an opening brace. -/
theorem pNat_rest_mem {l r : List Char} {m : Nat}
    (hp : pNat l = some (m, r)) (hm : lbr ∈ l) : lbr ∈ r := by
  match l with
  | [] => exact absurd hm (by simp)
  | c :: t =>
    simp only [pNat] at hp
    by_cases h0 : c = '0'
    · rw [if_pos h0] at hp
      simp only [Option.some.injEq, Prod.mk.injEq] at hp
      obtain ⟨-, rfl⟩ := hp
      rcases List.mem_cons.mp hm with h | h
      · exact absurd (h.trans h0) (by decide)
      · exact h
    · rw [if_neg h0] at hp
      by_cases hd : c.isDigit
      · rw [if_pos hd] at hp
        simp only [Option.some.injEq, Prod.mk.injEq] at hp
        obtain ⟨-, rfl⟩ := hp
        exact mem_dropWhile_of_neg (by decide) hm
      · rw [if_neg hd] at hp
        exact absurd hp (by simp)

/-- `pNum` never consumes an opening brace. -/
theorem pNum_rest_mem {l r : List Char} {n : Int}
    (hp : pNum l = some (n, r)) (hm : lbr ∈ l) : lbr ∈ r := by
  match l with
  | [] => exact absurd hm (by simp)
  | c :: t =>
    simp only [pNum] at hp
    by_cases hneg : c = '-'
    · rw [if_pos hneg] at hp
      cases hq : pNat t with
      | none => simp only [hq] at hp; exact absurd hp (by simp)
      | some p =>
        obtain ⟨m, r1⟩ := p
        simp only [hq] at hp
        split at hp
        · simp only [Option.some.injEq, Prod.mk.injEq] at hp
          obtain ⟨-, rfl⟩ := hp
          have hmt : lbr ∈ t := by
            rcases List.mem_cons.mp hm with h | h
            · exact absurd (h.trans hneg) (by decide)
            · exact h
          exact pNat_rest_mem hq hmt
        · exact absurd hp (by simp)
    · rw [if_neg hneg] at hp
      cases hq : pNat (c :: t) with
      | none => simp only [hq] at hp; exact absurd hp (by simp)
      | some p =>
        obtain ⟨m, r1⟩ := p
        simp only [hq] at hp
        split at hp
        · simp only [Option.some.injEq, Prod.mk.injEq] at hp
          obtain ⟨-, rfl⟩ := hp
          exact pNat_rest_mem hq hm
        · exact absurd hp (by simp)

/-- When the head character of the input is not a brace, bracket or quote,
`pVal` either fails or succeeds without consuming an opening brace that
occurs in the remainder. -/
theorem pVal_junk (fuel : Nat) (c : Char) (l2 : List Char)
    (h1 : ¬c = lbr) (h2 : ¬c = '[') (h3 : ¬c = '"') (hm : lbr ∈ l2) :
    pVal fuel (c :: l2) = none ∨
      ∃ v r, pVal fuel (c :: l2) = some (v, r) ∧ lbr ∈ r := by
  match fuel with
  | 0 => exact Or.inl rfl
  | Nat.succ f =>
    simp only [pVal]
    rw [if_neg h1, if_neg h2, if_neg h3]
    by_cases h4 : c = 't'
    · rw [if_pos h4]
      by_cases ht : l2.take 3 = ['r', 'u', 'e']
      · rw [if_pos ht]
        refine Or.inr ⟨.bool true, l2.drop 3, rfl, ?_⟩
        have hsplit : lbr ∈ l2.take 3 ++ l2.drop 3 := by
          rw [List.take_append_drop]; exact hm
        rcases List.mem_append.mp hsplit with h | h
        · rw [ht] at h; exact absurd h (by decide)
        · exact h
      · rw [if_neg ht]; exact Or.inl rfl
    · rw [if_neg h4]
      by_cases h5 : c = 'f'
      · rw [if_pos h5]
        by_cases ht : l2.take 4 = ['a', 'l', 's', 'e']
        · rw [if_pos ht]
          refine Or.inr ⟨.bool false, l2.drop 4, rfl, ?_⟩
          have hsplit : lbr ∈ l2.take 4 ++ l2.drop 4 := by
            rw [List.take_append_drop]; exact hm
          rcases List.mem_append.mp hsplit with h | h
          · rw [ht] at h; exact absurd h (by decide)
          · exact h
        · rw [if_neg ht]; exact Or.inl rfl
      · rw [if_neg h5]
        by_cases h6 : c = 'n'
        · rw [if_pos h6]
          by_cases ht : l2.take 3 = ['u', 'l', 'l']
          · rw [if_pos ht]
            refine Or.inr ⟨.null, l2.drop 3, rfl, ?_⟩
            have hsplit : lbr ∈ l2.take 3 ++ l2.drop 3 := by
              rw [List.take_append_drop]; exact hm
            rcases List.mem_append.mp hsplit with h | h
            · rw [ht] at h; exact absurd h (by decide)
            · exact h
          · rw [if_neg ht]; exact Or.inl rfl
        · rw [if_neg h6]
          cases hq : pNum (c :: l2) with
          | none => exact Or.inl rfl
          | some p =>
            obtain ⟨n, r⟩ := p
            refine Or.inr ⟨.num n, r, rfl, ?_⟩
            exact pNum_rest_mem hq (List.mem_cons_of_mem _ hm)

/-- Any text whose first non-whitespace character is not an opening brace,
bracket or quote fails to `JSON.parse` when an opening brace occurs later
in it. -/
theorem jsonParse_junk (p t : List Char)
    (hp : ∀ c ∈ p, ¬c = lbr ∧ ¬c = '[' ∧ ¬c = '"')
    (hnw : p.dropWhile wsChar ≠ []) :
    jsonParse (p ++ lbr :: t) = none := by
  obtain ⟨c, p2, hcp⟩ : ∃ c p2, p.dropWhile wsChar = c :: p2 := by
    cases hd : p.dropWhile wsChar with
    | nil => exact absurd hd hnw
    | cons a b => exact ⟨a, b, rfl⟩
  have hcmem : c ∈ p :=
    (List.dropWhile_sublist wsChar).subset (hcp.symm ▸ List.mem_cons_self c p2)
  have hcw : wsChar c = false := head_fails_of_dropWhile_cons hcp
  have hdropAll : (p ++ lbr :: t).dropWhile wsChar = c :: (p2 ++ lbr :: t) := by
    rw [dropWhile_append_headFails wsChar p (lbr :: t)
      (show wsChar lbr = false by decide), hcp, List.cons_append]
  obtain ⟨hc1, hc2, hc3⟩ := hp c hcmem
  have hmem : lbr ∈ p2 ++ lbr :: t :=
    List.mem_append.mpr (Or.inr (List.mem_cons_self _ _))
  rcases pVal_junk ((p ++ lbr :: t).length + 1) c (p2 ++ lbr :: t) hc1 hc2 hc3 hmem
    with h | ⟨v, r, h, hr⟩
  · simp only [jsonParse, hdropAll, h]
  · have hne : r.dropWhile wsChar ≠ [] :=
      dropWhile_ne_nil_of_mem hr (by decide)
    obtain ⟨c3, r3, hr3⟩ : ∃ c3 r3, r.dropWhile wsChar = c3 :: r3 := by
      cases hdd : r.dropWhile wsChar with
      | nil => exact absurd hdd hne
      | cons a b => exact ⟨a, b, rfl⟩
    simp only [jsonParse, hdropAll, h, hr3]
    rfl


/-! ## The balance walk is neutral on serialised values -/

/-- Characters the balance walk treats as state-preserving outside strings:
anything but a backslash, quote or brace. -/
def walkInert (c : Char) : Bool :=
  !(c = '\\' || c = '"' || c = lbr || c = rbr)

theorem walkInert_spec {c : Char} (hc : walkInert c = true) :
    ¬c = '\\' ∧ ¬c = '"' ∧ ¬c = lbr ∧ ¬c = rbr := by
  simp only [walkInert, Bool.not_eq_true', Bool.or_eq_false_iff,
    decide_eq_false_iff_not] at hc
  exact ⟨hc.1.1.1, hc.1.1.2, hc.1.2, hc.2⟩

theorem walkInert_of_ws {c : Char} (h : wsChar c = true) : walkInert c = true := by
  simp only [wsChar, Bool.or_eq_true, decide_eq_true_eq] at h
  rcases h with ((rfl | rfl) | rfl) | rfl <;> decide

theorem walkInert_digit {c : Char} (h : c.isDigit = true) : walkInert c = true := by
  simp only [walkInert, Bool.not_eq_true', Bool.or_eq_false_iff,
    decide_eq_false_iff_not]
  exact ⟨⟨⟨digit_ne_of h '\\' (by decide), digit_ne_of h '"' (by decide)⟩,
    digit_ne_of h lbr (by decide)⟩, digit_ne_of h rbr (by decide)⟩

/-- A chunk the walk passes over (outside a string, at positive balance)
without changing its state, prepending the chunk to the candidate. -/
def WalkNeutral (X : List Char) : Prop :=
  ∀ (bal : Int), 1 ≤ bal → ∀ (l : List Char),
    walkSplit (X ++ l) bal false false =
      (walkSplit l bal false false).map (fun p => (X ++ p.1, p.2))

/-- A chunk the walk passes over inside a string literal without changing
its state. -/
def StrNeutral (X : List Char) : Prop :=
  ∀ (bal : Int) (l : List Char),
    walkSplit (X ++ l) bal true false =
      (walkSplit l bal true false).map (fun p => (X ++ p.1, p.2))

theorem walkSplit_inert_cons {c : Char} (hc : walkInert c = true)
    (bal : Int) (inStr : Bool) (l : List Char) :
    walkSplit (c :: l) bal inStr false =
      (walkSplit l bal inStr false).map (fun p => (c :: p.1, p.2)) := by
  obtain ⟨h1, h2, h3, h4⟩ := walkInert_spec hc
  simp [walkSplit, h1, h2, h3, h4]

theorem walkNeutral_inert (X : List Char) (hX : ∀ c ∈ X, walkInert c = true) :
    WalkNeutral X := by
  induction X with
  | nil =>
      intro bal hb l
      cases h : walkSplit l bal false false with
      | none => simp [h]
      | some p => simp [h]
  | cons a X ih =>
      intro bal hb l
      rw [List.cons_append, walkSplit_inert_cons (hX a (by simp)) bal false,
        ih (fun c hc => hX c (List.mem_cons_of_mem _ hc)) bal hb l]
      cases walkSplit l bal false false <;> simp

theorem walkNeutral_append {X Y : List Char} (hX : WalkNeutral X)
    (hY : WalkNeutral Y) : WalkNeutral (X ++ Y) := by
  intro bal hb l
  rw [List.append_assoc, hX bal hb (Y ++ l), hY bal hb l]
  cases walkSplit l bal false false <;> simp

theorem strNeutral_nil : StrNeutral [] := by
  intro bal l
  cases h : walkSplit l bal true false <;> simp [h]

theorem strNeutral_append {X Y : List Char} (hX : StrNeutral X)
    (hY : StrNeutral Y) : StrNeutral (X ++ Y) := by
  intro bal l
  rw [List.append_assoc, hX bal (Y ++ l), hY bal l]
  cases walkSplit l bal true false <;> simp

theorem strNeutral_plain {c : Char} (h1 : ¬c = '\\') (h2 : ¬c = '"') :
    StrNeutral [c] := by
  intro bal l
  rw [List.cons_append, List.nil_append]
  cases h : walkSplit l bal true false <;> simp [walkSplit, h1, h2, h]

/-- An escape pair inside a string: the backslash sets the escaped flag,
the next character is consumed unconditionally. -/
theorem walkSplit_esc_pair (e : Char) (bal : Int) (l : List Char) :
    walkSplit ('\\' :: e :: l) bal true false =
      (walkSplit l bal true false).map (fun p => ('\\' :: e :: p.1, p.2)) := by
  rw [show walkSplit ('\\' :: e :: l) bal true false =
      (walkSplit (e :: l) bal true true).map (fun p => ('\\' :: p.1, p.2)) from by
    simp [walkSplit]]
  rw [show walkSplit (e :: l) bal true true =
      (walkSplit l bal true false).map (fun p => (e :: p.1, p.2)) from by
    simp [walkSplit]]
  cases walkSplit l bal true false <;> simp

theorem strNeutral_esc_pair (e : Char) : StrNeutral ['\\', e] := by
  intro bal l
  rw [List.cons_append, List.cons_append, List.nil_append]
  exact walkSplit_esc_pair e bal l

theorem hexDigit_ne (k : Nat) (hk : k < 16) :
    ¬hexDigit k = '\\' ∧ ¬hexDigit k = '"' := by
  interval_cases k <;> exact ⟨by decide, by decide⟩

theorem strNeutral_escChar (c : Char) : StrNeutral (escChar c) := by
  by_cases h1 : c = '"'
  · rw [escChar.eq_def, if_pos h1]; exact strNeutral_esc_pair '"'
  by_cases h2 : c = '\\'
  · rw [escChar.eq_def, if_neg h1, if_pos h2]; exact strNeutral_esc_pair '\\'
  by_cases h3 : c = '\x08'
  · rw [escChar.eq_def, if_neg h1, if_neg h2, if_pos h3]
    exact strNeutral_esc_pair 'b'
  by_cases h4 : c = '\t'
  · rw [escChar.eq_def, if_neg h1, if_neg h2, if_neg h3, if_pos h4]
    exact strNeutral_esc_pair 't'
  by_cases h5 : c = '\n'
  · rw [escChar.eq_def, if_neg h1, if_neg h2, if_neg h3, if_neg h4, if_pos h5]
    exact strNeutral_esc_pair 'n'
  by_cases h6 : c = '\x0c'
  · rw [escChar.eq_def, if_neg h1, if_neg h2, if_neg h3, if_neg h4, if_neg h5,
      if_pos h6]
    exact strNeutral_esc_pair 'f'
  by_cases h7 : c = '\r'
  · rw [escChar.eq_def, if_neg h1, if_neg h2, if_neg h3, if_neg h4, if_neg h5,
      if_neg h6, if_pos h7]
    exact strNeutral_esc_pair 'r'
  by_cases h8 : c.toNat < 32
  · rw [escChar.eq_def, if_neg h1, if_neg h2, if_neg h3, if_neg h4, if_neg h5,
      if_neg h6, if_neg h7, if_pos h8]
    have hx1 := hexDigit_ne (c.toNat / 16) (by omega)
    have hx2 := hexDigit_ne (c.toNat % 16) (by omega)
    have hshape : ('\\' :: 'u' :: '0' :: '0' :: hexDigit (c.toNat / 16) ::
        [hexDigit (c.toNat % 16)]) = ['\\', 'u'] ++ (['0'] ++ (['0'] ++
        ([hexDigit (c.toNat / 16)] ++ [hexDigit (c.toNat % 16)]))) := by simp
    rw [hshape]
    exact strNeutral_append (strNeutral_esc_pair 'u')
      (strNeutral_append (strNeutral_plain (by decide) (by decide))
        (strNeutral_append (strNeutral_plain (by decide) (by decide))
          (strNeutral_append (strNeutral_plain hx1.1 hx1.2)
            (strNeutral_plain hx2.1 hx2.2))))
  · rw [escChar.eq_def, if_neg h1, if_neg h2, if_neg h3, if_neg h4, if_neg h5,
      if_neg h6, if_neg h7, if_neg h8]
    exact strNeutral_plain h2 h1

theorem strNeutral_escBody (s : List Char) : StrNeutral (escBody s) := by
  induction s with
  | nil => exact strNeutral_nil
  | cons c cs ih => exact strNeutral_append (strNeutral_escChar c) ih

/-- An unescaped quote toggles the in-string state. -/
theorem walkSplit_quote (inStr : Bool) (bal : Int) (l : List Char) :
    walkSplit ('"' :: l) bal inStr false =
      (walkSplit l bal (!inStr) false).map (fun p => ('"' :: p.1, p.2)) := by
  simp [walkSplit]

/-- A serialised string literal is neutral for the walk: its braces are
inert because they sit inside the quotes. -/
theorem walkNeutral_string (s : List Char) :
    WalkNeutral ('"' :: (escBody s ++ ['"'])) := by
  intro bal hb l
  have h1 : ('"' :: (escBody s ++ ['"'])) ++ l =
      '"' :: (escBody s ++ ('"' :: l)) := by simp
  rw [h1, walkSplit_quote false bal, Bool.not_false,
    strNeutral_escBody s bal ('"' :: l), walkSplit_quote true bal l,
    Bool.not_true]
  cases walkSplit l bal false false <;> simp

/-- An opening brace outside a string increments the balance. -/
theorem walkSplit_lbr (bal : Int) (l : List Char) :
    walkSplit (lbr :: l) bal false false =
      (walkSplit l (bal + 1) false false).map (fun p => (lbr :: p.1, p.2)) := by
  simp only [walkSplit]
  rw [if_neg (by decide), if_neg (by decide), if_neg (by decide),
    if_pos (by decide)]

/-- A closing brace at balance 1 ends the walk with the candidate so far. -/
theorem walkSplit_rbr_stop (l : List Char) :
    walkSplit (rbr :: l) 1 false false = some ([rbr], l) := by
  simp only [walkSplit]
  rw [if_neg (by decide), if_neg (by decide), if_neg (by decide),
    if_neg (by decide), if_pos (by decide), if_pos (by decide)]

/-- A closing brace at balance above 1 just decrements the balance. -/
theorem walkSplit_rbr_cont (bal : Int) (hb : 1 ≤ bal) (l : List Char) :
    walkSplit (rbr :: l) (bal + 1) false false =
      (walkSplit l bal false false).map (fun p => (rbr :: p.1, p.2)) := by
  simp only [walkSplit]
  rw [if_neg (by decide), if_neg (by decide), if_neg (by decide),
    if_neg (by decide), if_pos (by decide),
    if_neg (show ¬(bal + 1 - 1 = 0) by omega),
    show bal + 1 - 1 = bal from by omega]

mutual

/-- A serialised value is neutral for the balance walk at positive balance:
its braces are balanced and its in-string braces are ignored. -/
theorem walkV_neutral (g : GapCfg) (hg : wsOnly g) :
    ∀ (v : Json) (d : Nat), WalkNeutral (strGenV g d v)
  | .null, _ => walkNeutral_inert ['n', 'u', 'l', 'l'] (by decide)
  | .bool true, _ => walkNeutral_inert ['t', 'r', 'u', 'e'] (by decide)
  | .bool false, _ => walkNeutral_inert ['f', 'a', 'l', 's', 'e'] (by decide)
  | .num n, _ => by
      apply walkNeutral_inert
      intro c hc
      have hc2 : c ∈ intChars n := hc
      simp only [intChars] at hc2
      split at hc2
      · rcases List.mem_cons.mp hc2 with rfl | h
        · decide
        · exact walkInert_digit (natDigits_all_digit _ c h)
      · exact walkInert_digit (natDigits_all_digit _ c hc2)
  | .str s, _ => walkNeutral_string s.data
  | .arr [], _ => walkNeutral_inert ['[', ']'] (by decide)
  | .arr (x :: xs), d => by
      have h := walkNeutral_append (walkNeutral_inert ['['] (by decide))
        (walkNeutral_append
          (walkNeutral_inert (g.pre d) (fun c hc => walkInert_of_ws (hg.1 d c hc)))
          (walkNeutral_append (walkV_neutral g hg x (d + 1))
            (walkNeutral_append (walkE_neutral g hg xs d)
              (walkNeutral_append
                (walkNeutral_inert (g.close d)
                  (fun c hc => walkInert_of_ws (hg.2.1 d c hc)))
                (walkNeutral_inert [']'] (by decide))))))
      have hshape : strGenV g d (Json.arr (x :: xs)) =
          ['['] ++ (g.pre d ++ (strGenV g (d + 1) x ++ (strGenE g d xs ++
            (g.close d ++ [']'])))) := by
        show '[' :: (g.pre d ++ strGenV g (d + 1) x ++ strGenE g d xs ++
          g.close d ++ [']']) = _
        simp [List.append_assoc]
      rw [hshape]
      exact h
  | .obj [], _ => by
      intro bal hb l
      show walkSplit (lbr :: rbr :: l) bal false false = _
      rw [walkSplit_lbr bal (rbr :: l), walkSplit_rbr_cont bal hb l]
      cases walkSplit l bal false false <;> simp [strGenV]
  | .obj (f0 :: fs), d => by
      have hinner : WalkNeutral (g.pre d ++ (strGenM g d f0 ++ (strGenF g d fs ++
          g.close d))) :=
        walkNeutral_append
          (walkNeutral_inert (g.pre d) (fun c hc => walkInert_of_ws (hg.1 d c hc)))
          (walkNeutral_append (walkM_aux g hg f0 d)
            (walkNeutral_append (walkF_neutral g hg fs d)
              (walkNeutral_inert (g.close d)
                (fun c hc => walkInert_of_ws (hg.2.1 d c hc)))))
      intro bal hb l
      have hshape : strGenV g d (Json.obj (f0 :: fs)) ++ l =
          lbr :: ((g.pre d ++ (strGenM g d f0 ++ (strGenF g d fs ++ g.close d))) ++
            (rbr :: l)) := by
        show (lbr :: (g.pre d ++ strGenM g d f0 ++ strGenF g d fs ++
          g.close d ++ [rbr])) ++ l = _
        simp [List.append_assoc]
      rw [hshape, walkSplit_lbr bal, hinner (bal + 1) (by omega) (rbr :: l),
        walkSplit_rbr_cont bal hb l]
      cases walkSplit l bal false false <;>
        simp [strGenV, List.append_assoc]
termination_by v _ => 2 * jfuel v
decreasing_by
  all_goals simp only [jfuel, jfuelE, jfuelF]
  all_goals omega

/-- The comma-separated tail of a serialised array is walk-neutral. -/
theorem walkE_neutral (g : GapCfg) (hg : wsOnly g) :
    ∀ (xs : List Json) (d : Nat), WalkNeutral (strGenE g d xs)
  | [], _ => walkNeutral_inert [] (by simp)
  | x :: xs, d => by
      have h := walkNeutral_append (walkNeutral_inert [','] (by decide))
        (walkNeutral_append
          (walkNeutral_inert (g.pre d) (fun c hc => walkInert_of_ws (hg.1 d c hc)))
          (walkNeutral_append (walkV_neutral g hg x (d + 1))
            (walkE_neutral g hg xs d)))
      have hshape : strGenE g d (x :: xs) =
          [','] ++ (g.pre d ++ (strGenV g (d + 1) x ++ strGenE g d xs)) := by
        show ',' :: (g.pre d ++ strGenV g (d + 1) x ++ strGenE g d xs) = _
        simp [List.append_assoc]
      rw [hshape]
      exact h
termination_by xs _ => 2 * jfuelE xs
decreasing_by
  all_goals simp only [jfuel, jfuelE, jfuelF]
  all_goals omega

/-- A serialised object member is walk-neutral. -/
theorem walkM_aux (g : GapCfg) (hg : wsOnly g) :
    ∀ (f0 : String × Json) (d : Nat), WalkNeutral (strGenM g d f0)
  | f0, d => by
      have h := walkNeutral_append (walkNeutral_string f0.1.data)
        (walkNeutral_append
          (walkNeutral_inert (':' :: g.colon)
            (by
              intro c hc
              rcases List.mem_cons.mp hc with rfl | h
              · decide
              · exact walkInert_of_ws (hg.2.2 c h)))
          (walkV_neutral g hg f0.2 (d + 1)))
      have hshape : strGenM g d f0 =
          ('"' :: (escBody f0.1.data ++ ['"'])) ++ ((':' :: g.colon) ++
            strGenV g (d + 1) f0.2) := by
        rw [strGenM.eq_def]
        simp [List.append_assoc]
      rw [hshape]
      exact h
termination_by f0 _ => 2 * jfuel f0.2 + 1
decreasing_by
  all_goals omega

/-- The comma-separated tail of a serialised object is walk-neutral. -/
theorem walkF_neutral (g : GapCfg) (hg : wsOnly g) :
    ∀ (fs : List (String × Json)) (d : Nat), WalkNeutral (strGenF g d fs)
  | [], _ => walkNeutral_inert [] (by simp)
  | f0 :: fs, d => by
      have h := walkNeutral_append (walkNeutral_inert [','] (by decide))
        (walkNeutral_append
          (walkNeutral_inert (g.pre d) (fun c hc => walkInert_of_ws (hg.1 d c hc)))
          (walkNeutral_append (walkM_aux g hg f0 d)
            (walkF_neutral g hg fs d)))
      have hshape : strGenF g d (f0 :: fs) =
          [','] ++ (g.pre d ++ (strGenM g d f0 ++ strGenF g d fs)) := by
        show ',' :: (g.pre d ++ strGenM g d f0 ++ strGenF g d fs) = _
        simp [List.append_assoc]
      rw [hshape]
      exact h
termination_by fs _ => 2 * jfuelF fs
decreasing_by
  all_goals simp only [jfuel, jfuelE, jfuelF]
  all_goals omega

end

/-- The balance walk started at the opening brace of a serialised object
returns exactly the serialisation as the candidate. -/
theorem walkSplit_obj_top (g : GapCfg) (hg : wsOnly g)
    (fs : List (String × Json)) (d : Nat) (l : List Char) :
    walkSplit (strGenV g d (Json.obj fs) ++ l) 0 false false =
      some (strGenV g d (Json.obj fs), l) := by
  cases fs with
  | nil =>
      show walkSplit (lbr :: rbr :: l) 0 false false = some ([lbr, rbr], l)
      rw [walkSplit_lbr 0 (rbr :: l), show (0 : Int) + 1 = 1 from by omega,
        walkSplit_rbr_stop l]
      rfl
  | cons f0 fs =>
      have hinner : WalkNeutral (g.pre d ++ (strGenM g d f0 ++ (strGenF g d fs ++
          g.close d))) :=
        walkNeutral_append
          (walkNeutral_inert (g.pre d) (fun c hc => walkInert_of_ws (hg.1 d c hc)))
          (walkNeutral_append (walkM_aux g hg f0 d)
            (walkNeutral_append (walkF_neutral g hg fs d)
              (walkNeutral_inert (g.close d)
                (fun c hc => walkInert_of_ws (hg.2.1 d c hc)))))
      have hshape : strGenV g d (Json.obj (f0 :: fs)) ++ l =
          lbr :: ((g.pre d ++ (strGenM g d f0 ++ (strGenF g d fs ++ g.close d))) ++
            (rbr :: l)) := by
        show (lbr :: (g.pre d ++ strGenM g d f0 ++ strGenF g d fs ++
          g.close d ++ [rbr])) ++ l = _
        simp [List.append_assoc]
      rw [hshape, walkSplit_lbr 0, hinner (0 + 1) (by omega) (rbr :: l),
        show (0 : Int) + 1 = 1 from by omega, walkSplit_rbr_stop l]
      show some _ = some (lbr :: (g.pre d ++ strGenM g d f0 ++ strGenF g d fs ++
        g.close d ++ [rbr]), l)
      simp [List.append_assoc]


/-! ## Trim and fence behaviour around an embedded serialised object -/

/-- Right-trim (on character lists): drop trailing whitespace. -/
def rtrimChars (l : List Char) : List Char :=
  (l.reverse.dropWhile wsChar).reverse

/-- Trimming around a chunk whose head and last characters are non-blank:
only the outer prose is trimmed. -/
theorem trim_decompose (p Y q : List Char) (c : Char) (t : List Char)
    (hS : Y ++ [rbr] = c :: t) (hc : wsChar c = false) :
    trimChars (p ++ ((Y ++ [rbr]) ++ q)) =
      p.dropWhile wsChar ++ ((Y ++ [rbr]) ++ rtrimChars q) := by
  have h1 : (p ++ ((Y ++ [rbr]) ++ q)).dropWhile wsChar =
      p.dropWhile wsChar ++ ((Y ++ [rbr]) ++ q) :=
    dropWhile_append_headFails wsChar p ((Y ++ [rbr]) ++ q)
      (by rw [hS, List.cons_append]; exact hc)
  have h2 : (p.dropWhile wsChar ++ ((Y ++ [rbr]) ++ q)).reverse =
      q.reverse ++ (rbr :: (Y.reverse ++ (p.dropWhile wsChar).reverse)) := by
    simp [List.reverse_append, List.append_assoc]
  have h3 : (q.reverse ++ (rbr :: (Y.reverse ++
      (p.dropWhile wsChar).reverse))).dropWhile wsChar =
      q.reverse.dropWhile wsChar ++
        (rbr :: (Y.reverse ++ (p.dropWhile wsChar).reverse)) :=
    dropWhile_append_headFails wsChar _ _ (show wsChar rbr = false by decide)
  simp only [trimChars, rtrimChars]
  rw [h1, h2, h3]
  simp [List.reverse_append, List.append_assoc]

theorem take3_ne_fence {c : Char} (t : List Char) (hc : ¬c = '`') :
    ¬(c :: t).take 3 = ['`', '`', '`'] := by
  rw [List.take_succ_cons]
  intro hcon
  injection hcon with h1 _
  exact hc h1

/-- `fenceStrip` is the identity on text that does not start with a fence. -/
theorem fenceStrip_id (l : List Char) (h : ¬l.take 3 = ['`', '`', '`']) :
    fenceStrip l = l := by
  simp only [fenceStrip]
  rw [if_neg h]

/-- Splitting at the first opening brace when the prefix has none. -/
theorem firstBraceSplit_at (p2 X q : List Char) (t2 : List Char)
    (hX : X = lbr :: t2) (hp : ∀ c ∈ p2, ¬c = lbr) :
    firstBraceSplit (p2 ++ (X ++ q)) = some (p2, X ++ q) := by
  have hx : ∀ c ∈ p2, (!(c = lbr : Bool)) = true := by
    intro c hc
    simp [hp c hc]
  have hhf : headFails (fun c => !(c = lbr : Bool)) (X ++ q) := by
    rw [hX, List.cons_append]
    show (!(lbr = lbr : Bool)) = false
    decide
  have hdrop := dropWhile_append_all_fails (fun c => !(c = lbr)) p2 (X ++ q) hx hhf
  have htake := takeWhile_append_all (fun c => !(c = lbr)) p2 (X ++ q) hx hhf
  simp only [firstBraceSplit]
  rw [hdrop, htake, hX, List.cons_append]
  rfl

theorem isEmpty_false_of_ne_nil {α : Type} {l : List α} (h : l ≠ []) :
    l.isEmpty = false := by
  cases l with
  | nil => exact absurd rfl h
  | cons a b => rfl

/-- A serialised object starts with an opening brace. -/
theorem strGenV_obj_head (g : GapCfg) (d : Nat) (fs : List (String × Json)) :
    ∃ t2, strGenV g d (Json.obj fs) = lbr :: t2 := by
  cases fs with
  | nil => exact ⟨[rbr], rfl⟩
  | cons f0 fs => exact ⟨_, rfl⟩

/-- A serialised object ends with a closing brace. -/
theorem strGenV_obj_last (g : GapCfg) (d : Nat) (fs : List (String × Json)) :
    ∃ Y, strGenV g d (Json.obj fs) = Y ++ [rbr] := by
  cases fs with
  | nil => exact ⟨[lbr], rfl⟩
  | cons f0 fs =>
      refine ⟨lbr :: (g.pre d ++ strGenM g d f0 ++ strGenF g d fs ++ g.close d), ?_⟩
      show lbr :: (g.pre d ++ strGenM g d f0 ++ strGenF g d fs ++
        g.close d ++ [rbr]) = _
      simp [List.append_assoc]

/-- `JSON.parse` recovers a serialised object exactly. -/
theorem jsonParse_strGen_obj (g : GapCfg) (hg : wsOnly g)
    (fs : List (String × Json)) :
    jsonParse (strGenV g 0 (Json.obj fs)) = some (Json.obj fs) := by
  have h := jsonParse_ws_obj g hg fs [] [] (by simp)
  simpa using h

/-! ## The extraction theorem: prose around a serialised object -/

/-- The extraction pipeline recovers a serialised object embedded in prose,
for any prefix free of braces, brackets, quotes and backticks and *any*
suffix: either the direct parse succeeds (whitespace-only surroundings) or
the balance walk finds exactly the serialisation. -/
theorem safeParse_extract (g : GapCfg) (hg : wsOnly g)
    (fs : List (String × Json)) (pre post : String)
    (hpre : ∀ c ∈ pre.data, ¬c = lbr ∧ ¬c = '[' ∧ ¬c = '"' ∧ ¬c = '`') :
    safeParseJSON (pre ++ String.mk (strGenV g 0 (Json.obj fs)) ++ post) =
      SafeParsed.parsed (Json.obj fs) := by
  obtain ⟨t2, hH⟩ := strGenV_obj_head g 0 fs
  obtain ⟨Y, hY⟩ := strGenV_obj_last g 0 fs
  have hdata : (pre ++ String.mk (strGenV g 0 (Json.obj fs)) ++ post).data =
      pre.data ++ (strGenV g 0 (Json.obj fs) ++ post.data) := by
    show (pre ++ String.mk (strGenV g 0 (Json.obj fs)) ++ post).data = _
    rw [String.data_append, String.data_append]
    simp [List.append_assoc]
  by_cases hpw : pre.data.dropWhile wsChar = []
  · -- whitespace-only prefix
    have hws : ∀ c ∈ pre.data, wsChar c = true :=
      List.dropWhile_eq_nil_iff.mp hpw
    by_cases hqw : post.data.dropWhile wsChar = []
    · -- whitespace-only suffix: the direct parse already succeeds
      have h1 := jsonParse_ws_obj g hg fs pre.data post.data hws
      rw [if_pos (by rw [hqw]; rfl)] at h1
      simp only [safeParseJSON, hdata, h1]
    · -- non-blank suffix: direct and cleaned parses fail, the walk wins
      obtain ⟨cq, tq, hq⟩ : ∃ cq tq, post.data.dropWhile wsChar = cq :: tq := by
        cases hdd : post.data.dropWhile wsChar with
        | nil => exact absurd hdd hqw
        | cons a b => exact ⟨a, b, rfl⟩
      have hcqp : cq ∈ post.data :=
        (List.dropWhile_sublist wsChar).subset (hq.symm ▸ List.mem_cons_self cq tq)
      have hcqw : wsChar cq = false := head_fails_of_dropWhile_cons hq
      have hcqr : cq ∈ rtrimChars post.data := by
        rw [rtrimChars, List.mem_reverse]
        exact mem_dropWhile_of_neg hcqw (List.mem_reverse.mpr hcqp)
      have hqne : (rtrimChars post.data).dropWhile wsChar ≠ [] :=
        dropWhile_ne_nil_of_mem hcqr hcqw
      have h1 := jsonParse_ws_obj g hg fs pre.data post.data hws
      rw [if_neg (by
        rw [isEmpty_false_of_ne_nil (dropWhile_ne_nil_of_mem hcqp hcqw)]
        exact Bool.false_ne_true)] at h1
      have htrim : trimChars (pre.data ++ (strGenV g 0 (Json.obj fs) ++
          post.data)) = strGenV g 0 (Json.obj fs) ++ rtrimChars post.data := by
        rw [hY, trim_decompose pre.data Y post.data lbr t2
          (hY.symm.trans hH) (by decide), hpw, List.nil_append]
      have hfence : fenceStrip (strGenV g 0 (Json.obj fs) ++
          rtrimChars post.data) = strGenV g 0 (Json.obj fs) ++
          rtrimChars post.data := by
        apply fenceStrip_id
        rw [hH, List.cons_append]
        exact take3_ne_fence _ (by decide)
      have h2 := jsonParse_ws_obj g hg fs [] (rtrimChars post.data) (by simp)
      rw [List.nil_append,
        if_neg (by rw [isEmpty_false_of_ne_nil hqne]; exact Bool.false_ne_true)] at h2
      have hfb := firstBraceSplit_at [] (strGenV g 0 (Json.obj fs))
        (rtrimChars post.data) t2 hH (by simp)
      rw [List.nil_append] at hfb
      have hwalk := walkSplit_obj_top g hg fs 0 (rtrimChars post.data)
      have hparse := jsonParse_strGen_obj g hg fs
      simp only [safeParseJSON, hdata, h1, htrim, hfence, h2, hfb, hwalk, hparse]
  · -- the prefix has visible junk: both whole-text parses fail, the walk wins
    obtain ⟨a, t1, ha⟩ : ∃ a t1, pre.data.dropWhile wsChar = a :: t1 := by
      cases hdd : pre.data.dropWhile wsChar with
      | nil => exact absurd hdd hpw
      | cons x y => exact ⟨x, y, rfl⟩
    have hamem : a ∈ pre.data :=
      (List.dropWhile_sublist wsChar).subset (ha.symm ▸ List.mem_cons_self a t1)
    have haw : wsChar a = false := head_fails_of_dropWhile_cons ha
    have hjunk3 : ∀ c ∈ pre.data, ¬c = lbr ∧ ¬c = '[' ∧ ¬c = '"' :=
      fun c hc => ⟨(hpre c hc).1, (hpre c hc).2.1, (hpre c hc).2.2.1⟩
    have h1 : jsonParse (pre.data ++ (strGenV g 0 (Json.obj fs) ++
        post.data)) = none := by
      rw [hH, List.cons_append]
      exact jsonParse_junk pre.data (t2 ++ post.data) hjunk3 hpw
    have htrim : trimChars (pre.data ++ (strGenV g 0 (Json.obj fs) ++
        post.data)) = (a :: t1) ++ (strGenV g 0 (Json.obj fs) ++
          rtrimChars post.data) := by
      rw [hY, trim_decompose pre.data Y post.data lbr t2
        (hY.symm.trans hH) (by decide), ha, ← hY]
    have hsub : ∀ c ∈ a :: t1, c ∈ pre.data := by
      intro c hc
      exact (List.dropWhile_sublist wsChar).subset (ha.symm ▸ hc)
    have hfence : fenceStrip ((a :: t1) ++ (strGenV g 0 (Json.obj fs) ++
        rtrimChars post.data)) = (a :: t1) ++ (strGenV g 0 (Json.obj fs) ++
          rtrimChars post.data) := by
      apply fenceStrip_id
      rw [List.cons_append]
      exact take3_ne_fence _ (hpre a hamem).2.2.2
    have hdw : (a :: t1).dropWhile wsChar ≠ [] := by
      rw [List.dropWhile_cons, if_neg (by rw [haw]; exact Bool.false_ne_true)]
      exact List.cons_ne_nil a t1
    have h2 : jsonParse ((a :: t1) ++ (strGenV g 0 (Json.obj fs) ++
        rtrimChars post.data)) = none := by
      rw [hH, List.cons_append]
      exact jsonParse_junk (a :: t1) (t2 ++ rtrimChars post.data)
        (fun c hc => hjunk3 c (hsub c hc)) hdw
    have hfb := firstBraceSplit_at (a :: t1) (strGenV g 0 (Json.obj fs))
      (rtrimChars post.data) t2 hH (fun c hc => (hpre c (hsub c hc)).1)
    have hwalk := walkSplit_obj_top g hg fs 0 (rtrimChars post.data)
    have hparse := jsonParse_strGen_obj g hg fs
    simp only [safeParseJSON, hdata, h1, htrim, hfence, h2, hfb, hwalk, hparse]

/-! ## Brace balance of prose (for stating the original C4 hypothesis) -/

/-- Running brace depth of a text, `none` when a closing brace appears at
depth zero. -/
def braceDepth : List Char → Int → Option Int
  | [], bal => some bal
  | c :: t, bal =>
      if c = lbr then braceDepth t (bal + 1)
      else if c = rbr then
        if bal ≤ 0 then none else braceDepth t (bal - 1)
      else braceDepth t bal

/-- A text contains no unbalanced braces. -/
def bracesBalanced (l : List Char) : Prop := braceDepth l 0 = some 0


/-! ## JavaScript-style helpers shared by the application model -/

/-- JS truthiness of a JSON value (`undefined` is modelled as a missing
`Option`, see `jsTruthyO`). -/
def jsTruthy : Json → Bool
  | .null => false
  | .bool b => b
  | .num n => !(n = 0)
  | .str s => !(s = "")
  | .arr _ => true
  | .obj _ => true

/-- JS truthiness of a possibly-`undefined` value. -/
def jsTruthyO : Option Json → Bool
  | none => false
  | some v => jsTruthy v

/-- JS `a || b` on possibly-`undefined` values. -/
def jsOr (a b : Option Json) : Option Json := if jsTruthyO a then a else b

/-- JS `a || b` on plain values. -/
def jsOrJ (a b : Json) : Json := if jsTruthy a then a else b

/-- Property lookup on a JS object (first binding wins; objects produced by
the app have unique keys). -/
def dataGet (data : List (String × Json)) (k : String) : Option Json :=
  (data.find? (fun p => p.1 = k)).map (fun p => p.2)

/-- JS strict equality between a string and an arbitrary value. -/
def jsStrEq (s : String) (v : Json) : Bool :=
  match v with
  | .str s2 => s = s2
  | _ => false

/-- `String.prototype.includes` on character lists. -/
def containsSeq : List Char → List Char → Bool
  | [], sub => sub.isEmpty
  | c :: t, sub => sub.isPrefixOf (c :: t) || containsSeq t sub

/-- Decimal rendering of a natural number (JS number-to-string for the
integers used by the app). -/
def natToString (n : Nat) : String := String.mk (natDigits n)

/-! ## The todo store and its handlers (`App.tsx`)

`Todo` keeps the fields the claims are about (`createdAt` / `timeSpent`
omitted); `text` and `parentId` are stored verbatim as the JS values the
callers pass.  The React `setTodos` state is `live`; the `todos` binding
captured by the handlers' closure is the `snap` snapshot taken when the
turn started — `handleToggleTodo` reads the snapshot but writes the live
state, exactly as the source closure does.  IndexedDB calls are an oracle
`Db` whose operations may fail with an exception message. -/

structure Todo where
  id : String
  text : Json
  completed : Bool
  parentId : Json
deriving Repr, DecidableEq

structure Db where
  addTodo : Todo → Except String Unit
  updateTodo : Todo → Except String Unit
  deleteTodo : Json → Except String Unit
  getAllTodos : Except String (List Todo)

structure ToolState where
  live : List Todo
  snap : List Todo
deriving Repr

/-- `handleAddTodo`: append the new todo to the live list, then persist;
returns the generated id.  A store failure surfaces after the state
update, as in the source. -/
def handleAddTodo (db : Db) (genId : String) (text parentId : Json)
    (st : ToolState) : ToolState × Except String String :=
  let newTodo : Todo := ⟨genId, text, false, parentId⟩
  let st2 := { st with live := st.live ++ [newTodo] }
  (st2, (db.addTodo newTodo).map (fun _ => genId))

/-- `handleToggleTodo`: look the id up in the *snapshot*, flip that todo's
`completed` flag in the live list, persist the flipped todo. -/
def handleToggleTodo (db : Db) (id : Json) (st : ToolState) :
    ToolState × Except String Unit :=
  match st.snap.find? (fun t => jsStrEq t.id id) with
  | none => (st, .ok ())
  | some todo =>
      let updatedTodo := { todo with completed := !todo.completed }
      let newLive := st.live.map (fun t => if jsStrEq t.id id then updatedTodo else t)
      ({ st with live := newLive }, db.updateTodo updatedTodo)

/-- `handleDeleteTodo`: drop the id from the live list, persist. -/
def handleDeleteTodo (db : Db) (id : Json) (st : ToolState) :
    ToolState × Except String Unit :=
  let st2 := { st with live := st.live.filter (fun t => !(jsStrEq t.id id)) }
  (st2, db.deleteTodo id)

/-! ## Transcript model -/

inductive Role where
  | user
  | model
deriving Repr, DecidableEq

/-- A tool call issued by the model. -/
structure FCall where
  name : String
  args : List (String × Json)
  callId : String
deriving Repr, DecidableEq

inductive Part where
  | text (s : String)
  | functionCall (fc : FCall)
  | functionResponse (name : String) (response : Json) (callId : String)
deriving Repr, DecidableEq

structure Msg where
  role : Role
  parts : List Part
deriving Repr, DecidableEq

/-- The decoded service response the loop consumes. -/
structure ChatResponse where
  text : String
  functionCalls : List FCall
deriving Repr, DecidableEq

/-- Argument lookup on a call (`call.args.foo`; a missing argument is the
JS `undefined`, modelled as `null`). -/
def argOf (call : FCall) (k : String) : Json :=
  match dataGet call.args k with
  | some v => v
  | none => Json.null

/-! ## Per-call dispatch with the `try`/`catch` of the tool loop -/

/-- The body of the `try` block for one call: run the matching handler and
build its success result; an unmatched name keeps the initial
`{error: "Unknown function"}` result (that is a normal completion, not a
throw). -/
def rawHandler (db : Db) (genId : String) (st : ToolState) (call : FCall) :
    ToolState × Except String Json :=
  if call.name = "create_todo" then
    match handleAddTodo db genId (argOf call "text") (argOf call "parent_id") st with
    | (st2, .ok id) =>
        (st2, .ok (Json.obj [("id", Json.str id), ("status", Json.str "success")]))
    | (st2, .error e) => (st2, .error e)
  else if call.name = "update_todo" then
    match handleToggleTodo db (argOf call "id") st with
    | (st2, .ok _) => (st2, .ok (Json.obj [("status", Json.str "success")]))
    | (st2, .error e) => (st2, .error e)
  else if call.name = "delete_todo" then
    match handleDeleteTodo db (argOf call "id") st with
    | (st2, .ok _) => (st2, .ok (Json.obj [("status", Json.str "success")]))
    | (st2, .error e) => (st2, .error e)
  else if call.name = "get_todos" then
    match db.getAllTodos with
    | .ok allTodos =>
        (st, .ok (Json.obj [("count", Json.num allTodos.length),
          ("todos", Json.arr (allTodos.map (fun t => Json.obj
            [("id", Json.str t.id), ("text", t.text),
             ("completed", Json.bool t.completed)])))]))
    | .error e => (st, .error e)
  else (st, .ok (Json.obj [("error", Json.str "Unknown function")]))

/-- The `catch`: a thrown handler exception becomes an
`{error: message}` result object. -/
def dispatch (db : Db) (genId : String) (st : ToolState) (call : FCall) :
    ToolState × Json :=
  match rawHandler db genId st call with
  | (st2, .ok j) => (st2, j)
  | (st2, .error e) => (st2, Json.obj [("error", Json.str e)])

/-- The `for (const call of response.functionCalls)` loop: dispatch each
call in emission order, collecting one functionResponse part per call.
`gen idx` supplies the id `handleAddTodo` would generate for the idx-th
call of the batch. -/
def processCalls (db : Db) (gen : Nat → String) (idx : Nat) (st : ToolState) :
    List FCall → ToolState × List Part
  | [] => (st, [])
  | call :: rest =>
      let r1 := dispatch db (gen idx) st call
      let r2 := processCalls db gen (idx + 1) r1.1 rest
      (r2.1, Part.functionResponse call.name r1.2 call.callId :: r2.2)

/-- The model-role turn echoing the calls: one functionCall part per call
in order, preceded by a text part only when the response text is
non-empty (JS string truthiness of `response.text`). -/
def aiCallMessage (r : ChatResponse) : Msg :=
  ⟨Role.model,
    (if r.text = "" then [] else [Part.text r.text]) ++
      r.functionCalls.map Part.functionCall⟩

/-- One iteration ceiling. -/
def MAX_LOOPS : Nat := 5

/-- The tool loop of `handleSendMessageInternal`: while not finished and
under the ceiling, ask the model; a response with calls appends the
call turn and the joint response turn and loops; a response without calls
appends the final text turn and finishes.  Returns the transcript, the
final tool state and the number of model round-trips issued. -/
def runLoop (model : List Msg → ChatResponse) (db : Db) (gen : Nat → String) :
    Nat → Nat → List Msg → ToolState → List Msg × ToolState × Nat
  | 0, rounds, hist, st => (hist, st, rounds)
  | Nat.succ fuel, rounds, hist, st =>
      let r := model hist
      if r.functionCalls.isEmpty then
        (hist ++ [⟨Role.model, [Part.text r.text]⟩], st, rounds + 1)
      else
        let pc := processCalls db gen 0 st r.functionCalls
        runLoop model db gen fuel (rounds + 1)
          (hist ++ [aiCallMessage r, ⟨Role.user, pc.2⟩]) pc.1

/-- The whole turn: loop with the `MAX_LOOPS` ceiling from round 0. -/
def toolLoop (model : List Msg → ChatResponse) (db : Db) (gen : Nat → String)
    (hist : List Msg) (st : ToolState) : List Msg × ToolState × Nat :=
  runLoop model db gen MAX_LOOPS 0 hist st

/-! ## `handleFormSubmit` (`App.tsx`) -/

def SUBMISSION_TAG : String := "[SYSTEM_ANNOTATION: Form Submission Data]"

/-- `parentId = data['target_parent_id'] || data['parent_id'] ||
data['parent_task_id']`. -/
def parentIdLookup (data : List (String × Json)) : Option Json :=
  jsOr (jsOr (dataGet data "target_parent_id") (dataGet data "parent_id"))
    (dataGet data "parent_task_id")

/-- `Object.values(data).find(v => typeof v === 'string' &&
todos.some(t => t.id === v))`. -/
def potentialParentId (todos : List Todo) (data : List (String × Json)) :
    Option Json :=
  (data.map Prod.snd).find? (fun v =>
    match v with
    | Json.str s => todos.any (fun t => t.id = s)
    | _ => false)

def finalParentId (todos : List Todo) (data : List (String × Json)) :
    Option Json :=
  jsOr (parentIdLookup data) (potentialParentId todos data)

/-- `subtasks = data['new_subtasks'] || data['subtasks'] ||
data['subtasks_list']`. -/
def subtasksLookup (data : List (String × Json)) : Option Json :=
  jsOr (jsOr (dataGet data "new_subtasks") (dataGet data "subtasks"))
    (dataGet data "subtasks_list")

/-- `Array.isArray` on a possibly-`undefined` value. -/
def isArr : Option Json → Bool
  | some (Json.arr _) => true
  | _ => false

/-- The hidden prompt of the no-subtask-match path:
annotation tag, newline, `JSON.stringify(data, null, 2)`. -/
def hiddenPrompt (data : List (String × Json)) : String :=
  SUBMISSION_TAG ++ "\n" ++ jstringifyPretty (Json.obj data)

/-- `handleFormSubmit`'s message production: on a parent/subtask match the
subtask path runs instead (`none`); otherwise a user turn carrying the
hidden prompt is sent. -/
def formSubmitTurn (todoAi : Bool) (todos : List Todo)
    (data : List (String × Json)) : Option Msg :=
  if todoAi && jsTruthyO (finalParentId todos data) &&
      isArr (subtasksLookup data) then
    none
  else some ⟨Role.user, [Part.text (hiddenPrompt data)]⟩

/-! ## The fallback retry of `generateChatResponse` (`services/gemini.ts`) -/

/-- The non-model arguments of a request, re-sent verbatim on fallback. -/
structure Req where
  history : List Msg
  userInput : String
  systemInstruction : String
  config : Json
  attachments : List Json
deriving Repr, DecidableEq

def FALLBACK_MODEL : String := "gemini-2.5-flash-preview-09-2025"

def SIG1 : String := "Function call is missing a thought signature"

def SIG2 : String := "beyond::dependency::3"

def REGION_MSG : String := "Region not supported"

/-- The `parsedMessage` normalisation: if the raw message starts with an
opening brace and parses as JSON with a truthy `error` property, use
`error.message` when it is a non-empty string; any parse failure keeps
the raw message (the inner `catch (e) \x7b\x7d`). -/
def parseErrMsg (raw : String) : String :=
  match raw.data with
  | [] => raw
  | c :: _ =>
      if c = lbr then
        match jsonParse raw.data with
        | none => raw
        | some j =>
            match j with
            | Json.obj fields =>
                match dataGet fields "error" with
                | none => raw
                | some ev =>
                    if jsTruthy ev then
                      match ev with
                      | Json.obj efields =>
                          match dataGet efields "message" with
                          | some (Json.str m) => if m = "" then raw else m
                          | _ => raw
                      | _ => raw
                    else raw
            | _ => raw
      else raw

/-- Does the normalised message match one of the two defect signatures? -/
def sigMatch (pm : String) : Bool :=
  containsSeq pm.data SIG1.data || containsSeq pm.data SIG2.data

/-- `generateChatResponse` against an API oracle, also recording the
`(model, request)` pairs actually issued.  The fuel only bounds the
self-recursion; the fallback guard makes depth 2 sufficient
(`genChatAux_irrel`). -/
def genChatAux (api : String → Req → Except String ChatResponse) :
    Nat → String → Req → Except String ChatResponse × List (String × Req)
  | 0, _, _ => (.error "", [])
  | Nat.succ fuel, modelName, req =>
      match api modelName req with
      | .ok r => (.ok r, [(modelName, req)])
      | .error raw =>
          let pm := parseErrMsg raw
          if sigMatch pm && !(modelName = FALLBACK_MODEL) then
            let x := genChatAux api fuel FALLBACK_MODEL req
            (x.1, (modelName, req) :: x.2)
          else if containsSeq pm.data REGION_MSG.data then
            (.error "Region not supported. Try VPN.", [(modelName, req)])
          else (.error pm, [(modelName, req)])

def genChat (api : String → Req → Except String ChatResponse)
    (modelName : String) (req : Req) :
    Except String ChatResponse × List (String × Req) :=
  genChatAux api 2 modelName req

/-! ## The form-payload parser and default seeding (`FormAgentCard`) -/

/-- The form-field attributes the parser and seeding read (`type` is
`ftype`; absent JSON attributes are `null`). -/
structure FormField where
  key : String
  ftype : String
  defaultValue : Json
  min : Json
deriving Repr, DecidableEq

/-- The key-disambiguation pass: an empty or already-seen key is replaced
by `` `${uniqueKey || 'field'}_${index}` ``; every resulting key is added
to the seen set. -/
def dedupAux (seen : List String) (idx : Nat) :
    List FormField → List FormField
  | [] => []
  | f :: rest =>
      let uniqueKey :=
        if f.key = "" || seen.contains f.key then
          (if f.key = "" then "field" else f.key) ++ "_" ++ natToString idx
        else f.key
      { f with key := uniqueKey } :: dedupAux (uniqueKey :: seen) (idx + 1) rest

def dedupFields (fields : List FormField) : List FormField :=
  dedupAux [] 0 fields

/-- The seeded default of one field: checkboxes get
`defaultValue || []`, range sliders `defaultValue || min || 0`,
everything else `defaultValue || ''`. -/
def defaultFor (f : FormField) : Json :=
  if f.ftype = "checkboxes" then jsOrJ f.defaultValue (Json.arr [])
  else if f.ftype = "range_slider" then
    jsOrJ f.defaultValue (jsOrJ f.min (Json.num 0))
  else jsOrJ f.defaultValue (Json.str "")

/-- The seeding pass over the parsed fields: a key not yet present in the
form state receives its default; present keys are untouched. -/
def seedDefaults (fields : List FormField) (st : List (String × Json)) :
    List (String × Json) :=
  fields.foldl
    (fun acc f =>
      if (dataGet acc f.key).isNone then acc ++ [(f.key, defaultFor f)]
      else acc)
    st


/-! ## C3: the extractor never throws and preserves the raw input in the
sentinel -/

/-- C3: for every input string, `safeParse` never throws: it returns either
a recovered JSON value or the sentinel object carrying the error tag and
the original input verbatim in its raw field; on `"not json at all"`
every recovery strategy fails and the sentinel is returned. -/
theorem c3_safeParse_total_and_sentinel :
    (∀ raw : String,
        (∃ j, safeParseJSON raw = SafeParsed.parsed j) ∨
          safeParseJSON raw = SafeParsed.failed "JSON Parse Error" raw) ∧
      safeParseJSON "not json at all" =
        SafeParsed.failed "JSON Parse Error" "not json at all" := by
  constructor
  · intro raw
    unfold safeParseJSON lastDitch
    dsimp only
    repeat' (first | split | dsimp only)
    all_goals first
      | exact Or.inl ⟨_, rfl⟩
      | exact Or.inr rfl
  · decide


/-! ## C4: brace-balance extraction of an embedded object -/

/-- C4 (counterexample to the original wording): the prose prefix
`"\x7b\x7d "` contains only *balanced* braces, yet the extractor returns
the empty object from the prefix instead of the serialised object that
follows it — the balance walk stops at the first point the balance returns
to zero, not at the embedded `JSON.stringify` output. -/
theorem c4_counterexample :
    bracesBalanced [lbr, rbr, ' '] ∧ bracesBalanced ([] : List Char) ∧
      safeParseJSON (String.mk [lbr, rbr, ' '] ++
          jstringify (Json.obj [("a", Json.num 1)]) ++ "") =
        SafeParsed.parsed (Json.obj []) ∧
      ¬Json.obj [] = Json.obj [("a", Json.num 1)] :=
  ⟨rfl, rfl, by decide, by decide⟩

/-- C4 (amended): for every JSON object `o` and prose strings `pre`, `post`
where `pre` contains no opening brace, bracket, double quote or backtick,
`safeParse(pre + JSON.stringify(o) + post)` returns `o`, including when `o`
contains string values with literal braces (they are inert during the
balance walk); `post` is arbitrary. -/
theorem c4_brace_extraction (fs : List (String × Json)) (pre post : String)
    (hpre : ∀ c ∈ pre.data, ¬c = lbr ∧ ¬c = '[' ∧ ¬c = '"' ∧ ¬c = '`') :
    safeParseJSON (pre ++ jstringify (Json.obj fs) ++ post) =
      SafeParsed.parsed (Json.obj fs) :=
  safeParse_extract compactCfg compactCfg_wsOnly fs pre post hpre

/-- C4 witness: concrete prose around an object whose string value contains
literal braces. -/
theorem c4_brace_extraction_witness :
    (∀ c ∈ ("Here is the JSON: " : String).data,
        ¬c = lbr ∧ ¬c = '[' ∧ ¬c = '"' ∧ ¬c = '`') ∧
      safeParseJSON ("Here is the JSON: " ++
          jstringify (Json.obj [("a", Json.str "x\x7d\x7by")]) ++ " . Thanks!") =
        SafeParsed.parsed (Json.obj [("a", Json.str "x\x7d\x7by")]) :=
  ⟨by decide, c4_brace_extraction [("a", Json.str "x\x7d\x7by")]
    "Here is the JSON: " " . Thanks!" (by decide)⟩


/-! ## Loop-counting lemmas -/

/-- Against a model that always requests tools, the loop spends all its
fuel, one round per unit. -/
theorem runLoop_rounds_always (model : List Msg → ChatResponse) (db : Db)
    (gen : Nat → String) (h : ∀ h2 : List Msg, ¬(model h2).functionCalls = []) :
    ∀ (fuel rounds : Nat) (hist : List Msg) (st : ToolState),
      (runLoop model db gen fuel rounds hist st).2.2 = rounds + fuel := by
  intro fuel
  induction fuel with
  | zero => intro rounds hist st; rfl
  | succ f ih =>
      intro rounds hist st
      have hne : (model hist).functionCalls.isEmpty = false :=
        isEmpty_false_of_ne_nil (h hist)
      simp only [runLoop, hne, Bool.false_eq_true, if_false]
      rw [ih]
      omega

/-- The loop never issues more round-trips than its fuel. -/
theorem runLoop_rounds_le (model : List Msg → ChatResponse) (db : Db)
    (gen : Nat → String) :
    ∀ (fuel rounds : Nat) (hist : List Msg) (st : ToolState),
      (runLoop model db gen fuel rounds hist st).2.2 ≤ rounds + fuel := by
  intro fuel
  induction fuel with
  | zero => intro rounds hist st; simp [runLoop]
  | succ f ih =>
      intro rounds hist st
      simp only [runLoop]
      split
      · show rounds + 1 ≤ rounds + (f + 1)
        omega
      · exact le_trans (ih (rounds + 1) _ _) (by omega)

/-! ## C1: the tool loop runs exactly five rounds against a persistent
tool-caller -/

/-- C1: against a model that returns function calls on every response, the
tool loop issues exactly 5 model round-trips and then terminates (the
last, still tool-requesting, response ends the turn); and no run of the
loop, whatever the model does, ever exceeds 5 round-trips, a response
without calls being the only way to stop earlier. -/
theorem c1_loop_five_rounds (model : List Msg → ChatResponse) (db : Db)
    (gen : Nat → String) (hist : List Msg) (st : ToolState)
    (h : ∀ h2 : List Msg, ¬(model h2).functionCalls = []) :
    (toolLoop model db gen hist st).2.2 = 5 ∧
      ∀ (model2 : List Msg → ChatResponse) (db2 : Db) (gen2 : Nat → String)
        (hist2 : List Msg) (st2 : ToolState),
        (toolLoop model2 db2 gen2 hist2 st2).2.2 ≤ 5 := by
  constructor
  · have hr := runLoop_rounds_always model db gen h 5 0 hist st
    show (runLoop model db gen MAX_LOOPS 0 hist st).2.2 = 5
    rw [show MAX_LOOPS = 5 from rfl, hr]
  · intro model2 db2 gen2 hist2 st2
    have hle := runLoop_rounds_le model2 db2 gen2 5 0 hist2 st2
    show (runLoop model2 db2 gen2 MAX_LOOPS 0 hist2 st2).2.2 ≤ 5
    rw [show MAX_LOOPS = 5 from rfl]
    omega

/-- Witness fixtures: a trivially-succeeding store, sequential ids, a model
that always asks for the todo list. -/
def dbOracleW : Db :=
  ⟨fun _ => .ok (), fun _ => .ok (), fun _ => .ok (), .ok []⟩

def genIdW : Nat → String := fun n => natToString n

def modelAlwaysW : List Msg → ChatResponse :=
  fun _ => ⟨"", [⟨"get_todos", [], "c0"⟩]⟩

/-- C1 witness: the always-tool-calling model really spends 5 rounds. -/
theorem c1_loop_five_rounds_witness :
    (∀ h2 : List Msg, ¬(modelAlwaysW h2).functionCalls = []) ∧
      (toolLoop modelAlwaysW dbOracleW genIdW [] ⟨[], []⟩).2.2 = 5 :=
  ⟨fun _ => List.cons_ne_nil _ _,
    (c1_loop_five_rounds modelAlwaysW dbOracleW genIdW [] ⟨[], []⟩
      (fun _ => List.cons_ne_nil _ _)).1⟩

/-! ## C2: one call turn and one joint response turn, in emission order -/

/-- C2: when a response carries the calls `[A, B, C]`, the loop iteration
appends exactly one model-role turn whose functionCall parts are
`[A, B, C]` in order (preceded by a text part only when the response text
is non-empty) and exactly one user-role turn with one functionResponse
part per call, in the same order; the handlers run sequentially in that
order, so no completion-order reshuffling is possible. -/
theorem c2_batch_ordering (model : List Msg → ChatResponse) (db : Db)
    (gen : Nat → String) (fuel rounds : Nat) (hist : List Msg) (st : ToolState)
    (A B C : FCall) (h : (model hist).functionCalls = [A, B, C]) :
    ∃ ra rb rc st2,
      runLoop model db gen (fuel + 1) rounds hist st =
        runLoop model db gen fuel (rounds + 1)
          (hist ++
            [⟨Role.model,
               (if (model hist).text = "" then [] else [Part.text (model hist).text]) ++
                 [Part.functionCall A, Part.functionCall B, Part.functionCall C]⟩,
             ⟨Role.user,
               [Part.functionResponse A.name ra A.callId,
                Part.functionResponse B.name rb B.callId,
                Part.functionResponse C.name rc C.callId]⟩]) st2 := by
  simp only [runLoop, aiCallMessage, h, List.map_cons, List.map_nil,
    List.isEmpty_cons, Bool.false_eq_true, if_false, processCalls]
  exact ⟨_, _, _, _, rfl⟩

/-- A model emitting a three-call batch, for the C2 witness. -/
def modelBatchW : List Msg → ChatResponse :=
  fun _ => ⟨"sure",
    [⟨"create_todo", [("text", Json.str "a")], "i1"⟩,
     ⟨"bogus", [], "i2"⟩,
     ⟨"get_todos", [], "i3"⟩]⟩

/-- C2 witness: a concrete three-call batch. -/
theorem c2_batch_ordering_witness :
    (modelBatchW []).functionCalls =
      [⟨"create_todo", [("text", Json.str "a")], "i1"⟩,
       ⟨"bogus", [], "i2"⟩, ⟨"get_todos", [], "i3"⟩] ∧
    ∃ ra rb rc st2,
      runLoop modelBatchW dbOracleW genIdW (3 + 1) 0 [] ⟨[], []⟩ =
        runLoop modelBatchW dbOracleW genIdW 3 (0 + 1)
          ([] ++
            [⟨Role.model,
               (if (modelBatchW []).text = "" then []
                else [Part.text (modelBatchW []).text]) ++
                 [Part.functionCall ⟨"create_todo", [("text", Json.str "a")], "i1"⟩,
                  Part.functionCall ⟨"bogus", [], "i2"⟩,
                  Part.functionCall ⟨"get_todos", [], "i3"⟩]⟩,
             ⟨Role.user,
               [Part.functionResponse "create_todo" ra "i1",
                Part.functionResponse "bogus" rb "i2",
                Part.functionResponse "get_todos" rc "i3"]⟩]) st2 :=
  ⟨rfl, c2_batch_ordering modelBatchW dbOracleW genIdW 3 0 [] ⟨[], []⟩
    ⟨"create_todo", [("text", Json.str "a")], "i1"⟩
    ⟨"bogus", [], "i2"⟩
    ⟨"get_todos", [], "i3"⟩ rfl⟩

/-! ## C7: a throwing handler becomes an `{error: message}` part -/

/-- C7: when the try-block of a dispatched call ends in a thrown exception,
the catch substitutes the `{error: message}` object as that call's
functionResponse part and the batch (and hence the loop) continues with
the remaining calls — the turn never rethrows. -/
theorem c7_handler_error_caught (db : Db) (gen : Nat → String) (i : Nat)
    (st st2 : ToolState) (call : FCall) (rest : List FCall) (m : String)
    (h : rawHandler db (gen i) st call = (st2, Except.error m)) :
    (processCalls db gen i st (call :: rest)).2 =
      Part.functionResponse call.name
          (Json.obj [("error", Json.str m)]) call.callId ::
        (processCalls db gen (i + 1) st2 rest).2 := by
  simp only [processCalls, dispatch, h]

/-- A store whose update operation throws. -/
def dbBoomW : Db :=
  ⟨fun _ => .ok (), fun _ => .error "boom", fun _ => .ok (), .ok []⟩

def todoW : Todo := ⟨"t1", Json.str "old", false, Json.null⟩

/-- C7 witness: a failing update_todo call yields the error part and the
batch goes on. -/
theorem c7_handler_error_caught_witness :
    rawHandler dbBoomW (genIdW 0) ⟨[todoW], [todoW]⟩
        ⟨"update_todo", [("id", Json.str "t1")], "c9"⟩ =
      (⟨[⟨"t1", Json.str "old", true, Json.null⟩], [todoW]⟩,
        Except.error "boom") ∧
    (processCalls dbBoomW genIdW 0 ⟨[todoW], [todoW]⟩
        [⟨"update_todo", [("id", Json.str "t1")], "c9"⟩,
         ⟨"get_todos", [], "c10"⟩]).2 =
      Part.functionResponse "update_todo"
          (Json.obj [("error", Json.str "boom")]) "c9" ::
        (processCalls dbBoomW genIdW 1
          ⟨[⟨"t1", Json.str "old", true, Json.null⟩], [todoW]⟩
          [⟨"get_todos", [], "c10"⟩]).2 :=
  ⟨rfl,
    c7_handler_error_caught dbBoomW genIdW 0 ⟨[todoW], [todoW]⟩
      ⟨[⟨"t1", Json.str "old", true, Json.null⟩], [todoW]⟩
      ⟨"update_todo", [("id", Json.str "t1")], "c9"⟩
      [⟨"get_todos", [], "c10"⟩] "boom" rfl⟩

/-! ## C10: update_todo only toggles -/

/-- C10: a dispatched update_todo call runs the toggle handler on
`args.id` and nothing else: the stored text is untouched whatever the
`text` argument says, and the completed flag is flipped relative to the
*current* state even when the `completed` argument restates that state —
the declared `completed`/`text` parameters of the tool contract are dead. -/
theorem c10_update_toggle_only (db : Db) (gid : String) (st : ToolState)
    (call : FCall) (t : Todo) (s : String)
    (hname : call.name = "update_todo")
    (hid : argOf call "id" = Json.str s)
    (hfind : st.snap.find? (fun t2 => jsStrEq t2.id (Json.str s)) = some t)
    (hok : db.updateTodo { t with completed := !t.completed } = Except.ok ()) :
    dispatch db gid st call =
      ({ st with live := st.live.map (fun t2 =>
          if jsStrEq t2.id (Json.str s) then { t with completed := !t.completed }
          else t2) },
        Json.obj [("status", Json.str "success")]) := by
  have h1 : rawHandler db gid st call =
      ({ st with live := st.live.map (fun t2 =>
          if jsStrEq t2.id (Json.str s) then { t with completed := !t.completed }
          else t2) },
        Except.ok (Json.obj [("status", Json.str "success")])) := by
    simp only [rawHandler, hname, reduceIte]
    simp only [handleToggleTodo, hid, hfind, hok]
    rw [if_neg (by decide)]
  simp only [dispatch, h1]

/-- C10 witness: supplying `completed: false` (the current state) and a
new `text` still flips the flag and keeps the old text. -/
theorem c10_update_toggle_only_witness :
    argOf ⟨"update_todo",
        [("id", Json.str "t1"), ("completed", Json.bool false),
         ("text", Json.str "NEW")], "c4"⟩ "id" = Json.str "t1" ∧
    dispatch dbOracleW "g" ⟨[todoW], [todoW]⟩
        ⟨"update_todo",
          [("id", Json.str "t1"), ("completed", Json.bool false),
           ("text", Json.str "NEW")], "c4"⟩ =
      ((⟨([todoW] : List Todo).map (fun t2 => if jsStrEq t2.id (Json.str "t1") then { todoW with completed := !todoW.completed } else t2), [todoW]⟩ : ToolState),
        Json.obj [("status", Json.str "success")]) :=
  ⟨rfl,
    c10_update_toggle_only dbOracleW "g" ⟨[todoW], [todoW]⟩
      ⟨"update_todo",
        [("id", Json.str "t1"), ("completed", Json.bool false),
         ("text", Json.str "NEW")], "c4"⟩ todoW "t1" rfl rfl rfl rfl⟩


/-! ## C9: the hidden form-submission annotation turn -/

/-- C9: a form submission without a parent-task/subtask match produces a
user-role turn whose text is the literal annotation tag followed by
pretty-printed JSON that reparses to exactly the submitted values map. -/
theorem c9_submission_turn (todoAi : Bool) (todos : List Todo)
    (data : List (String × Json))
    (hno : (todoAi && jsTruthyO (finalParentId todos data) &&
        isArr (subtasksLookup data)) = false) :
    ∃ rest : String,
      formSubmitTurn todoAi todos data =
        some ⟨Role.user, [Part.text (SUBMISSION_TAG ++ rest)]⟩ ∧
      jsonParse rest.data = some (Json.obj data) := by
  refine ⟨"\n" ++ jstringifyPretty (Json.obj data), ?_, ?_⟩
  · simp only [formSubmitTurn, hno, Bool.false_eq_true, if_false, hiddenPrompt,
      String.append_assoc]
  · have h := jsonParse_ws_obj prettyCfg prettyCfg_wsOnly data ['\n'] []
      (by intro c hc; simp at hc; subst hc; rfl)
    rw [if_pos (show (List.dropWhile wsChar ([] : List Char)).isEmpty = true
      from rfl)] at h
    have hd : ("\n" ++ jstringifyPretty (Json.obj data)).data =
        ['\n'] ++ (strGenV prettyCfg 0 (Json.obj data) ++ []) := by
      rw [String.data_append]
      simp [jstringifyPretty]
    rw [hd, h]

/-- C9 witness: a concrete submission with no parent/subtask keys. -/
theorem c9_submission_turn_witness :
    ((true : Bool) && jsTruthyO (finalParentId [] [("rating", Json.num 5)]) &&
        isArr (subtasksLookup [("rating", Json.num 5)])) = false ∧
    ∃ rest : String,
      formSubmitTurn true [] [("rating", Json.num 5)] =
        some ⟨Role.user, [Part.text (SUBMISSION_TAG ++ rest)]⟩ ∧
      jsonParse rest.data = some (Json.obj [("rating", Json.num 5)]) :=
  ⟨by decide, c9_submission_turn true [] [("rating", Json.num 5)] (by decide)⟩

/-! ## C6: the one-shot fallback retry -/

/-- One unfolding step of the retry on a signature-matching failure. -/
theorem genChatAux_succ_err (api : String → Req → Except String ChatResponse)
    (fuel : Nat) (m : String) (req : Req) (raw : String)
    (herr : api m req = Except.error raw)
    (hsig : sigMatch (parseErrMsg raw) = true)
    (hm : ¬m = FALLBACK_MODEL) :
    genChatAux api (fuel + 1) m req =
      ((genChatAux api fuel FALLBACK_MODEL req).1,
        (m, req) :: (genChatAux api fuel FALLBACK_MODEL req).2) := by
  simp only [genChatAux, herr]
  rw [if_pos (by rw [hsig, decide_eq_false hm]; rfl)]

/-- At the fallback model the guard blocks recursion, so the fuel beyond
one step is irrelevant. -/
theorem genChatAux_fb_fuel (api : String → Req → Except String ChatResponse)
    (req : Req) (f1 f2 : Nat) :
    genChatAux api (f1 + 1) FALLBACK_MODEL req =
      genChatAux api (f2 + 1) FALLBACK_MODEL req := by
  cases h : api FALLBACK_MODEL req with
  | ok r => simp only [genChatAux, h]
  | error raw =>
      simp only [genChatAux, h]
      rw [if_neg (show ¬((sigMatch (parseErrMsg raw) && !decide True) = true)
        from by simp),
        if_neg (show ¬((sigMatch (parseErrMsg raw) && !decide True) = true)
        from by simp)]

/-- The fallback leg issues exactly one request, and a failure there
propagates as an error (no further retry). -/
theorem genChat_fb_shape (api : String → Req → Except String ChatResponse)
    (req : Req) :
    (genChat api FALLBACK_MODEL req).2 = [(FALLBACK_MODEL, req)] ∧
    ∀ raw2, api FALLBACK_MODEL req = Except.error raw2 →
      ∃ e, (genChat api FALLBACK_MODEL req).1 = Except.error e := by
  unfold genChat
  rw [show (2 : Nat) = 1 + 1 from rfl]
  cases h : api FALLBACK_MODEL req with
  | ok r =>
      constructor
      · simp only [genChatAux, h]
      · intro raw2 hcon
        exact absurd hcon (by simp)
  | error raw2 =>
      simp only [genChatAux, h]
      rw [if_neg (show ¬((sigMatch (parseErrMsg raw2) && !decide True) = true)
        from by simp)]
      constructor
      · split <;> rfl
      · intro raw3 _
        split
        · exact ⟨_, rfl⟩
        · exact ⟨_, rfl⟩

/-- C6: a request failure whose normalised message carries one of the two
defect signatures, against a non-fallback model, triggers exactly one
re-issue of the identical request against the fallback model, whose
result is returned transparently; a same-signature failure of the
fallback leg itself propagates as an error without another retry. -/
theorem c6_fallback_retry (api : String → Req → Except String ChatResponse)
    (m : String) (req : Req) (raw : String)
    (hm : ¬m = FALLBACK_MODEL)
    (herr : api m req = Except.error raw)
    (hsig : sigMatch (parseErrMsg raw) = true) :
    genChat api m req =
      ((genChat api FALLBACK_MODEL req).1,
        (m, req) :: (genChat api FALLBACK_MODEL req).2) ∧
    (genChat api FALLBACK_MODEL req).2 = [(FALLBACK_MODEL, req)] ∧
    (∀ raw2, api FALLBACK_MODEL req = Except.error raw2 →
      ∃ e, (genChat api FALLBACK_MODEL req).1 = Except.error e) := by
  refine ⟨?_, genChat_fb_shape api req⟩
  show genChatAux api 2 m req = _
  rw [show (2 : Nat) = 1 + 1 from rfl,
    genChatAux_succ_err api 1 m req raw herr hsig hm]
  show (_, _) = ((genChatAux api 2 FALLBACK_MODEL req).1,
    (m, req) :: (genChatAux api 2 FALLBACK_MODEL req).2)
  rw [show (2 : Nat) = 1 + 1 from rfl, genChatAux_fb_fuel api req 0 1]

/-- Witness fixtures for C6: an API that fails with the thought-signature
message except on the fallback model. -/
def apiW : String → Req → Except String ChatResponse :=
  fun m _ => if m = FALLBACK_MODEL then .ok ⟨"ok", []⟩ else .error SIG1

def reqW : Req := ⟨[], "", "", Json.null, []⟩

/-- C6 witness: the concrete retry. -/
theorem c6_fallback_retry_witness :
    (¬("gemini-3-pro" : String) = FALLBACK_MODEL ∧
      apiW "gemini-3-pro" reqW = Except.error SIG1 ∧
      sigMatch (parseErrMsg SIG1) = true) ∧
    genChat apiW "gemini-3-pro" reqW =
      ((genChat apiW FALLBACK_MODEL reqW).1,
        ("gemini-3-pro", reqW) :: (genChat apiW FALLBACK_MODEL reqW).2) :=
  ⟨⟨by decide, rfl, by decide⟩,
    (c6_fallback_retry apiW "gemini-3-pro" reqW SIG1 (by decide) rfl
      (by decide)).1⟩

/-! ## C5: key disambiguation in the form-payload parser -/

/-- C5 (counterexample to the original wording): two fields keyed `"x"`
come out as `"x"` and `"x_1"`, not `"x_0"` and `"x_1"` (the first
occurrence is not renamed); and the pass does not guarantee pairwise
distinct keys: `["x_2", "x", "x"]` yields `["x_2", "x", "x_2"]`, a
collision between the renamed third field and the untouched first. -/
theorem c5_counterexample :
    ¬((dedupFields [⟨"x", "text", Json.null, Json.null⟩,
        ⟨"x", "text", Json.null, Json.null⟩]).map (fun f => f.key) =
      ["x_0", "x_1"]) ∧
    ¬List.Pairwise (fun a b => ¬a = b)
      ((dedupFields [⟨"x_2", "text", Json.null, Json.null⟩,
        ⟨"x", "text", Json.null, Json.null⟩,
        ⟨"x", "text", Json.null, Json.null⟩]).map (fun f => f.key)) := by
  constructor
  · decide
  · decide

/-- C5 (amended): of two fields keyed `"x"`, the first keeps `"x"` and the
second is renamed to `"x_1"` (duplicate and empty keys get an
index suffix), and those two keys are distinct. -/
theorem c5_dedup_amended (f g : FormField) (hf : f.key = "x")
    (hg : g.key = "x") :
    (dedupFields [f, g]).map (fun f2 => f2.key) = ["x", "x_1"] ∧
      ¬("x" : String) = "x_1" := by
  obtain ⟨fk, ft, fd, fm⟩ := f
  obtain ⟨gk, gt, gd, gm⟩ := g
  dsimp only at hf hg
  subst hf
  subst hg
  exact ⟨rfl, by decide⟩

/-- C5 witness: the amended renaming on concrete fields. -/
theorem c5_dedup_amended_witness :
    (FormField.mk "x" "text" Json.null Json.null).key = "x" ∧
    ((dedupFields [⟨"x", "text", Json.null, Json.null⟩,
        ⟨"x", "checkboxes", Json.null, Json.null⟩]).map (fun f2 => f2.key) =
      ["x", "x_1"] ∧ ¬("x" : String) = "x_1") :=
  ⟨rfl, c5_dedup_amended ⟨"x", "text", Json.null, Json.null⟩
    ⟨"x", "checkboxes", Json.null, Json.null⟩ rfl rfl⟩

/-! ## C8: default seeding of the form state -/

/-- Seeding never rewrites a key that is already present. -/
theorem seed_preserve (fields : List FormField) :
    ∀ (acc : List (String × Json)) (k : String),
      (dataGet acc k).isSome = true →
      dataGet (seedDefaults fields acc) k = dataGet acc k := by
  induction fields with
  | nil => intro acc k _; rfl
  | cons f fs ih =>
      intro acc k h
      show dataGet (seedDefaults fs
        (if (dataGet acc f.key).isNone then acc ++ [(f.key, defaultFor f)]
          else acc)) k = _
      by_cases hk : (dataGet acc f.key).isNone
      · rw [if_pos hk]
        have hpres : dataGet (acc ++ [(f.key, defaultFor f)]) k = dataGet acc k := by
          simp only [dataGet] at h ⊢
          rw [List.find?_append]
          obtain ⟨p, hp⟩ : ∃ p, acc.find? (fun p => p.1 = k) = some p := by
            cases hfp : acc.find? (fun p => p.1 = k) with
            | none => rw [hfp] at h; simp at h
            | some p => exact ⟨p, rfl⟩
          rw [hp]
          rfl
        rw [ih _ k (by rw [hpres]; exact h), hpres]
      · rw [if_neg hk]
        exact ih acc k h

/-- After seeding, every field key is present. -/
theorem seed_present (fields : List FormField) :
    ∀ (acc : List (String × Json)), ∀ f ∈ fields,
      (dataGet (seedDefaults fields acc) f.key).isSome = true := by
  induction fields with
  | nil => intro acc f hf; exact absurd hf (by simp)
  | cons f0 fs ih =>
      intro acc f hf
      show (dataGet (seedDefaults fs
        (if (dataGet acc f0.key).isNone then acc ++ [(f0.key, defaultFor f0)]
          else acc)) f.key).isSome = true
      rcases List.mem_cons.mp hf with rfl | hmem
      · have hpost : (dataGet
            (if (dataGet acc f.key).isNone then acc ++ [(f.key, defaultFor f)]
              else acc) f.key).isSome = true := by
          by_cases hk : (dataGet acc f.key).isNone
          · rw [if_pos hk]
            simp only [dataGet, List.find?_append]
            cases hfp : acc.find? (fun p => p.1 = f.key) with
            | none =>
                rw [show List.find? (fun p => p.1 = f.key)
                    [(f.key, defaultFor f)] = some (f.key, defaultFor f) from by
                  simp [List.find?]]
                rfl
            | some p => rfl
          · rw [if_neg hk]
            cases ho : dataGet acc f.key with
            | none => rw [ho] at hk; exact absurd rfl hk
            | some v => rfl
        rcases Option.isSome_iff_exists.mp hpost with ⟨v, hv⟩
        rw [seed_preserve fs _ f.key hpost, hv]
        rfl
      · exact ih _ f hmem

/-- Seeding is the identity when every field key is already present. -/
theorem seed_noop (fields : List FormField) :
    ∀ (st : List (String × Json)),
      (∀ f ∈ fields, (dataGet st f.key).isSome = true) →
      seedDefaults fields st = st := by
  induction fields with
  | nil => intro st _; rfl
  | cons f fs ih =>
      intro st h
      show seedDefaults fs
        (if (dataGet st f.key).isNone then st ++ [(f.key, defaultFor f)]
          else st) = st
      have hf := h f (by simp)
      have hk : (dataGet st f.key).isNone = false := by
        cases ho : dataGet st f.key with
        | none => rw [ho] at hf; exact absurd hf (by simp)
        | some v => rfl
      rw [if_neg (by rw [hk]; exact Bool.false_ne_true)]
      exact ih st (fun g hg => h g (List.mem_cons_of_mem _ hg))

/-- C8 (counterexample to the original wording): a checkbox field with a
truthy declared defaultValue is seeded with that defaultValue, not with
the empty list; a range slider with a truthy defaultValue gets it instead
of its declared min. -/
theorem c8_counterexample :
    seedDefaults [⟨"k", "checkboxes", Json.arr [Json.str "a"], Json.null⟩] [] =
      [("k", Json.arr [Json.str "a"])] ∧
    ¬Json.arr [Json.str "a"] = Json.arr [] ∧
    seedDefaults [⟨"r", "range_slider", Json.num 7, Json.num 3⟩] [] =
      [("r", Json.num 7)] ∧
    ¬Json.num 7 = Json.num 3 :=
  ⟨rfl, by decide, rfl, by decide⟩

/-- C8 (amended): the seeding assigns a missing key its `defaultFor`
value — checkboxes `defaultValue || []`, range sliders
`defaultValue || min || 0`, all others `defaultValue || ''` — leaves every
present key untouched, makes every field key present, and re-running it on
its own output changes nothing (idempotent across re-renders). -/
theorem c8_seeding (fields : List FormField) (st : List (String × Json)) :
    (∀ k, (dataGet st k).isSome = true →
      dataGet (seedDefaults fields st) k = dataGet st k) ∧
    (∀ f ∈ fields, (dataGet (seedDefaults fields st) f.key).isSome = true) ∧
    seedDefaults fields (seedDefaults fields st) = seedDefaults fields st ∧
    (∀ f : FormField, dataGet st f.key = none →
      seedDefaults [f] st = st ++ [(f.key, defaultFor f)]) := by
  refine ⟨fun k => seed_preserve fields st k, seed_present fields st, ?_, ?_⟩
  · exact seed_noop fields _ (seed_present fields st)
  · intro f hnone
    show (if (dataGet st f.key).isNone then st ++ [(f.key, defaultFor f)]
      else st) = st ++ [(f.key, defaultFor f)]
    rw [if_pos (by rw [hnone]; rfl)]

/-- C8 witness: a concrete payload seeded into a non-empty state. -/
theorem c8_seeding_witness :
    (∀ k, (dataGet [("kept", Json.str "v")] k).isSome = true →
      dataGet (seedDefaults
        [⟨"kept", "text", Json.null, Json.null⟩,
         ⟨"c", "checkboxes", Json.null, Json.null⟩,
         ⟨"r", "range_slider", Json.null, Json.num 3⟩]
        [("kept", Json.str "v")]) k = dataGet [("kept", Json.str "v")] k) ∧
    (∀ f ∈ [(⟨"kept", "text", Json.null, Json.null⟩ : FormField),
         ⟨"c", "checkboxes", Json.null, Json.null⟩,
         ⟨"r", "range_slider", Json.null, Json.num 3⟩],
      (dataGet (seedDefaults
        [⟨"kept", "text", Json.null, Json.null⟩,
         ⟨"c", "checkboxes", Json.null, Json.null⟩,
         ⟨"r", "range_slider", Json.null, Json.num 3⟩]
        [("kept", Json.str "v")]) f.key).isSome = true) ∧
    seedDefaults
        [⟨"kept", "text", Json.null, Json.null⟩,
         ⟨"c", "checkboxes", Json.null, Json.null⟩,
         ⟨"r", "range_slider", Json.null, Json.num 3⟩]
      (seedDefaults
        [⟨"kept", "text", Json.null, Json.null⟩,
         ⟨"c", "checkboxes", Json.null, Json.null⟩,
         ⟨"r", "range_slider", Json.null, Json.num 3⟩]
        [("kept", Json.str "v")]) =
      seedDefaults
        [⟨"kept", "text", Json.null, Json.null⟩,
         ⟨"c", "checkboxes", Json.null, Json.null⟩,
         ⟨"r", "range_slider", Json.null, Json.num 3⟩]
        [("kept", Json.str "v")] ∧
    (∀ f : FormField, dataGet [("kept", Json.str "v")] f.key = none →
      seedDefaults [f] [("kept", Json.str "v")] =
        [("kept", Json.str "v")] ++ [(f.key, defaultFor f)]) :=
  c8_seeding
    [⟨"kept", "text", Json.null, Json.null⟩,
     ⟨"c", "checkboxes", Json.null, Json.null⟩,
     ⟨"r", "range_slider", Json.null, Json.num 3⟩]
    [("kept", Json.str "v")]


end FromAgent
